import Mathlib

/-!
# Access-key extractor: a verification development for `extractor.go`

The Go program tries every candidate key against a captured packet.  Two
engines exist: the additive checksum `calcChecksumV0` (driven by
`checkPacketV0`) and the HMAC-MD5 signature check `checkPacketV1`.

Modelling conventions
* a Go `byte` is `Fin 256`; all arithmetic is done on the values in `Nat`
  with the wrap-around of the Go type written out (`% 256`, `% 2^32`);
* a Go `string` used as a key is the list of its bytes (`[]byte(key)`);
* a Go slice carries its visible elements and the elements of its backing
  array up to the capacity, because a slice expression `s[lo:hi]` is checked
  against `cap(s)` while an index expression `s[i]` is checked against `len(s)`;
* a run-time panic is the `error` branch of `Except Fault`;
* the `for` loops that step an index are recursive functions over a fuel
  counter which the caller sets to the length of the buffer;
* the timing argument `start` and the elapsed-time report are left out;
* `crypto/md5` and `crypto/hmac` are library code: the digest function and
  the keyed MAC function are parameters of the embedding.
-/

namespace Extractor

/-! ## Data model -/

/-- A Go `byte`. -/
abbrev Byte := Fin 256

/-- A candidate key, as the bytes of the Go string. -/
abbrev Key := List Byte

/-- Run-time faults: the two bounds panics of Go, and fuel exhaustion of the model. -/
inductive Fault where
  | indexOutOfRange
  | sliceBounds
  | outOfFuel
  deriving DecidableEq, Repr

deriving instance DecidableEq for Except

/-- A Go `[]byte`: `vis` holds the elements `0 .. len`, `spare` the elements of
the backing array from `len` up to `cap`. -/
structure Slice where
  vis : List Byte
  spare : List Byte
  deriving DecidableEq, Repr

namespace Slice

/-- Go `len(s)`. -/
def len (s : Slice) : Nat := s.vis.length

/-- Go `cap(s)`. -/
def cap (s : Slice) : Nat := s.vis.length + s.spare.length

/-- All elements of the backing array that the slice can reach. -/
def backing (s : Slice) : List Byte := s.vis ++ s.spare

/-- A slice without spare capacity. -/
def ofList (l : List Byte) : Slice := ⟨l, []⟩

/-- Go index expression `s[i]`: panics unless `0 <= i < len(s)`. -/
def index (s : Slice) (i : Int) : Except Fault Byte :=
  if i < 0 then .error .indexOutOfRange
  else match s.vis.get? i.toNat with
    | some b => .ok b
    | none => .error .indexOutOfRange

/-- Go slice expression `s[lo:hi]`: panics unless `0 <= lo <= hi <= cap(s)`. -/
def slice (s : Slice) (lo hi : Int) : Except Fault Slice :=
  if 0 ≤ lo ∧ lo ≤ hi ∧ hi ≤ (s.cap : Int) then
    .ok ⟨(s.backing.take hi.toNat).drop lo.toNat, s.backing.drop hi.toNat⟩
  else .error .sliceBounds

end Slice

/-- Go index expression `data[i]` on the visible elements of a buffer. -/
def index (data : List Byte) (i : Nat) : Except Fault Byte :=
  match data.get? i with
  | some b => .ok b
  | none => .error .indexOutOfRange

/-! ## Fixed-width arithmetic -/

/-- Go `number += b` on a `uint8`. -/
def add8 (number b : Nat) : Nat := (number + b) % 256

/-- Go `sum += w` on a `uint32`. -/
def add32 (sum w : Nat) : Nat := (sum + w) % 2 ^ 32

/-- Go `x << s` on a `uint32`. -/
def shl32 (x s : Nat) : Nat := (x <<< s) % 2 ^ 32

/-- Go `byte(x)`: the low eight bits. -/
def toByte (x : Nat) : Byte := ⟨x % 256, Nat.mod_lt x (by decide)⟩

/-! ## `calcChecksumV0` (extractor.go, lines 101-138) -/

/-- Lines 110-112: `for i := 0; i < len(data)-3; i += 4 { sum += word at i }`.
The bound `len(data)-3` is a signed `int`. -/
def sumWords (data : List Byte) : Nat → Nat → Nat → Except Fault Nat
  | fuel, i, sum =>
    if (i : Int) < (data.length : Int) - 3 then
      match fuel with
      | 0 => .error .outOfFuel
      | fuel + 1 => do
        let b0 ← index data i
        let b1 ← index data (i + 1)
        let b2 ← index data (i + 2)
        let b3 ← index data (i + 3)
        sumWords data fuel (i + 4)
          (add32 sum (b0.val ||| shl32 b1.val 8 ||| shl32 b2.val 16 ||| shl32 b3.val 24))
    else .ok sum

/-- Lines 117-119: `for i := len(data) - remaining; i < len(data); i++
{ lastSum |= uint32(data[i]) << uint32((i%4)*8) }`. -/
def lastWord (data : List Byte) : Nat → Nat → Nat → Except Fault Nat
  | fuel, i, lastSum =>
    if i < data.length then
      match fuel with
      | 0 => .error .outOfFuel
      | fuel + 1 => do
        let b ← index data i
        lastWord data fuel (i + 1) (lastSum ||| shl32 b.val (((i % 4) * 8) % 2 ^ 32))
    else .ok lastSum

/-- Lines 123-125: `for i := (len(data) / 4) * 4; i < len(data); i++ { number += data[i] }`. -/
def addTrailing (data : List Byte) : Nat → Nat → Nat → Except Fault Nat
  | fuel, i, number =>
    if i < data.length then
      match fuel with
      | 0 => .error .outOfFuel
      | fuel + 1 => do
        let b ← index data i
        addTrailing data fuel (i + 1) (add8 number b.val)
    else .ok number

/-- The legacy checksum, `calcChecksumV0(key, data)`.  Only `len(data)` and index
expressions are used on `data`, so the buffer is given by its visible elements. -/
def calcChecksumV0 (key : Key) (data : List Byte) : Except Fault Nat := do
  let keyBytes := key
  let number := keyBytes.foldl (fun number b => add8 number b.val) 0
  let sum ← sumWords data data.length 0 0
  let remaining := data.length % 4
  let sum ←
    if remaining > 0 then do
      let lastSum ← lastWord data data.length (data.length - remaining) 0
      pure (add32 sum lastSum)
    else pure sum
  let number ← addTrailing data data.length ((data.length / 4) * 4) number
  let sumBytes := [toByte sum, toByte (sum >>> 8), toByte (sum >>> 16), toByte (sum >>> 24)]
  let number := sumBytes.foldl (fun number b => add8 number b.val) number
  pure number

/-! ## The key search (extractor.go, lines 83-99 and 140-181) -/

/-- What a search reports: `Found working access key: k`, or
`No possible access keys found for provided test packet`. -/
inductive SearchResult where
  | Match (key : Key)
  | NoMatch
  deriving DecidableEq, Repr

/-- The observable outcome of a search: the keys announced by `Trying key:`, in
order, and the final report. -/
structure Report where
  tried : List Key
  result : SearchResult
  deriving DecidableEq, Repr

/-- Lines 86-95: the loop of `checkPacketV0` over the candidates. -/
def loopV0 (oldCheck : Byte) (packetBytes : Slice) : List Key → Except Fault Report
  | [] => .ok ⟨[], .NoMatch⟩
  | key :: rest => do
    let data ← packetBytes.slice 0 ((packetBytes.len : Int) - 1)
    let newCheck ← calcChecksumV0 key data.vis
    if newCheck = oldCheck.val then
      .ok ⟨[key], .Match key⟩
    else do
      let r ← loopV0 oldCheck packetBytes rest
      .ok ⟨key :: r.tried, r.result⟩

/-- The V0 search, `checkPacketV0(possibleKeys, packetBytes, start)`. -/
def checkPacketV0 (possibleKeys : List Key) (packetBytes : Slice) : Except Fault Report := do
  let oldCheck ← packetBytes.index ((packetBytes.len : Int) - 1)
  loopV0 oldCheck packetBytes possibleKeys

/-- Lines 183-186: `md5Sum(text)`, the digest of the bytes of `text` as a slice. -/
def md5Sum (md5 : List Byte → List Byte) (text : Key) : List Byte :=
  let hash := md5 text
  hash

/-- Modelled from the spec: the streaming MAC of `crypto/hmac`, which is not part of
the repository.  The HMAC message is the concatenation, in order, of the
segments written; `hmac.New(md5.New, key)` starts with nothing written. -/
structure Mac where
  key : List Byte
  written : List Byte
  deriving DecidableEq, Repr

namespace Mac

/-- Go `hmac.New(md5.New, key)`. -/
def new (key : List Byte) : Mac := ⟨key, []⟩

/-- Go `mac.Write(p)`. -/
def write (m : Mac) (p : List Byte) : Mac := { m with written := m.written ++ p }

/-- Go `mac.Sum(nil)`, for the keyed digest function `hmacMD5`. -/
def sum (hmacMD5 : List Byte → List Byte → List Byte) (m : Mac) : List Byte :=
  hmacMD5 m.key m.written

end Mac

/-- Modelled from the spec: `hmac.Equal` of `crypto/hmac`, which is not part of the
repository; it compares the two values for exact byte equality. -/
def hmacEqual (mac1 mac2 : List Byte) : Bool := decide (mac1 = mac2)

/-- Lines 150-170: the signature `calculatedSignature` that the body of the loop of
`checkPacketV1` computes for one key. -/
def calculatedSignature (md5 : List Byte → List Byte)
    (hmacMD5 : List Byte → List Byte → List Byte)
    (key : Key) (headerSection options : Slice) : List Byte :=
  let keyBytes := key
  let signatureKey := md5Sum md5 key
  let signatureBase := keyBytes.foldl (fun signatureBase b => add32 signatureBase b.val) 0
  let signatureBaseBytes := [toByte signatureBase, toByte (signatureBase >>> 8),
    toByte (signatureBase >>> 16), toByte (signatureBase >>> 24)]
  let mac := Mac.new signatureKey
  let mac := mac.write headerSection.vis
  let mac := mac.write []
  let mac := mac.write signatureBaseBytes
  let mac := mac.write []
  let mac := mac.write options.vis
  let mac := mac.write []
  mac.sum hmacMD5

/-- The fields that lines 141-146 of `checkPacketV1` cut out of the packet. -/
structure V1Fields where
  header : Slice
  expectedSignature : Slice
  optionsSize : Byte
  headerSection : Slice
  options : Slice
  deriving DecidableEq, Repr

/-- Lines 141-146.  `optionsSize` is a `byte`, so the upper bound `30+optionsSize`
is computed in `uint8`. -/
def extractV1 (packetBytes : Slice) : Except Fault V1Fields := do
  let header ← packetBytes.slice 2 14
  let expectedSignature ← packetBytes.slice 14 30
  let optionsSize ← header.index 1
  let headerSection ← header.slice 4 header.len
  let options ← packetBytes.slice 30 (((30 + optionsSize.val) % 256 : Nat) : Int)
  pure ⟨header, expectedSignature, optionsSize, headerSection, options⟩

/-- Lines 148-177: the loop of `checkPacketV1` over the candidates. -/
def loopV1 (md5 : List Byte → List Byte) (hmacMD5 : List Byte → List Byte → List Byte)
    (f : V1Fields) : List Key → Report
  | [] => ⟨[], .NoMatch⟩
  | key :: rest =>
    if hmacEqual f.expectedSignature.vis
        (calculatedSignature md5 hmacMD5 key f.headerSection f.options) then
      ⟨[key], .Match key⟩
    else
      let r := loopV1 md5 hmacMD5 f rest
      ⟨key :: r.tried, r.result⟩

/-- The V1 search, `checkPacketV1(possibleKeys, packetBytes, start)`. -/
def checkPacketV1 (md5 : List Byte → List Byte) (hmacMD5 : List Byte → List Byte → List Byte)
    (possibleKeys : List Key) (packetBytes : Slice) : Except Fault Report := do
  let f ← extractV1 packetBytes
  pure (loopV1 md5 hmacMD5 f possibleKeys)

/-! ## Dispatch in `main` (extractor.go, lines 76-80) -/

/-- Line 17: `MAGIC_V1 = []byte{0xEA, 0xD0}`. -/
def MAGIC_V1 : List Byte := [0xEA, 0xD0]

/-- The two engines. -/
inductive Engine where
  | V0
  | V1
  deriving DecidableEq, Repr

/-- Line 76: `len(packetBytes) >= 2 && packetBytes[0] == MAGIC_V1[0] &&
packetBytes[1] == MAGIC_V1[1]`, with the short-circuit evaluation of `&&`. -/
def selectEngine (packetBytes : Slice) : Except Fault Engine :=
  if packetBytes.len ≥ 2 then do
    let p0 ← packetBytes.index 0
    let m0 ← index MAGIC_V1 0
    if p0 = m0 then do
      let p1 ← packetBytes.index 1
      let m1 ← index MAGIC_V1 1
      if p1 = m1 then pure .V1 else pure .V0
    else pure .V0
  else pure .V0

/-- Lines 76-80: the packet is handed to the engine selected by its first two bytes. -/
def mainDispatch (md5 : List Byte → List Byte) (hmacMD5 : List Byte → List Byte → List Byte)
    (possibleKeys : List Key) (packetBytes : Slice) : Except Fault Report := do
  let engine ← selectEngine packetBytes
  match engine with
  | .V1 => checkPacketV1 md5 hmacMD5 possibleKeys packetBytes
  | .V0 => checkPacketV0 possibleKeys packetBytes

/-! ## Definitions used in the statements -/

/-- The value of the byte at index `i` of a buffer (zero outside the buffer). -/
def byteAt (d : List Byte) (i : Nat) : Nat := (d.getD i 0).val

/-- The sum of the byte values of a buffer, without any wrap-around. -/
def byteSum (l : List Byte) : Nat := (l.map Fin.val).sum

/-- The little-endian value of the complete 4-byte group number `j`. -/
def groupValue (d : List Byte) (j : Nat) : Nat :=
  byteAt d (4 * j) + byteAt d (4 * j + 1) * 2 ^ 8 + byteAt d (4 * j + 2) * 2 ^ 16
    + byteAt d (4 * j + 3) * 2 ^ 24

/-- The sum of the trailing bytes at their byte lanes: the sum over `i` in `[m, n)` of
`d[i] * 2 ^ (8 * (i mod 4))`, where `m = 4 * (n / 4)`. -/
def trailingWord (d : List Byte) : Nat :=
  ∑ i in Finset.Ico (4 * (d.length / 4)) d.length, byteAt d i * 2 ^ (8 * (i % 4))

/-- The 32-bit word sum `W`: all complete groups plus the trailing word, mod `2^32`. -/
def wordSum (d : List Byte) : Nat :=
  (∑ j in Finset.range (d.length / 4), groupValue d j + trailingWord d) % 2 ^ 32

/-- The sum of the four byte lanes of a 32-bit value. -/
def laneSum (w : Nat) : Nat :=
  w % 256 + w / 2 ^ 8 % 256 + w / 2 ^ 16 % 256 + w / 2 ^ 24 % 256

/-- The fields of a V1 packet, read off the backing array of the packet; `hi` is the
upper bound of the options region. -/
def fieldsV1 (p : Slice) (hi : Nat) : V1Fields where
  header := ⟨(p.backing.take 14).drop 2, p.backing.drop 14⟩
  expectedSignature := ⟨(p.backing.take 30).drop 14, p.backing.drop 30⟩
  optionsSize := p.backing.getD 3 0
  headerSection := ⟨(p.backing.take 14).drop 6, p.backing.drop 14⟩
  options := ⟨(p.backing.take hi).drop 30, p.backing.drop hi⟩

/-- The upper bound `30+optionsSize` as the code computes it, in `uint8`. -/
def optionsEnd (p : Slice) : Nat := (30 + byteAt p.backing 3) % 256

/-- The little-endian encoding of a 32-bit value in four bytes. -/
def le32 (x : Nat) : List Byte :=
  [toByte x, toByte (x / 2 ^ 8), toByte (x / 2 ^ 16), toByte (x / 2 ^ 24)]

/-- The signature that `checkPacketV1` computes for a key on a packet: the fields are
cut out (lines 141-146) and the body of the loop is run for that key (lines 150-170). -/
def signatureV1 (md5 : List Byte → List Byte) (hmacMD5 : List Byte → List Byte → List Byte)
    (key : Key) (packetBytes : Slice) : Except Fault (List Byte) := do
  let f ← extractV1 packetBytes
  pure (calculatedSignature md5 hmacMD5 key f.headerSection f.options)

/-- A stand-in digest function for concrete evaluations: the first 16 bytes of the
text, padded with zeros. -/
def sampleDigest (text : List Byte) : List Byte := (text ++ List.replicate 16 0).take 16

/-- A stand-in keyed MAC for concrete evaluations: 16 bytes that depend on the key and
on the message. -/
def sampleMac (key msg : List Byte) : List Byte :=
  (toByte (byteSum key + 3 * byteSum msg)) :: (msg ++ List.replicate 15 0).take 15

/-- A well-formed V1 packet with two option bytes and an all-zero signature. -/
def samplePacket : Slice :=
  Slice.ofList ([0xEA, 0xD0, 9, 2, 8, 7, 1, 2, 3, 4, 5, 6, 7, 8] ++ List.replicate 16 0
    ++ [0x11, 0x22])

/-- A packet of 256 bytes whose options-size byte is 226, followed by 226 option
bytes: it satisfies `len >= 30` and `30 + S <= len`. -/
def wrapPacket : Slice :=
  Slice.ofList ([0xEA, 0xD0, 0, 226] ++ List.replicate 26 0 ++ List.replicate 226 0)

/-- A packet of 16 visible bytes beginning `0xEA 0xD0`, with 16 further bytes of spare
capacity behind them (as left by decoding a 32-character hexadecimal string in place). -/
def shortPacket : Slice :=
  ⟨[0xEA, 0xD0] ++ List.replicate 14 0, List.replicate 16 0x30⟩

/-- A search that tries the candidates in list order with a verification test and
stops at the first one that verifies. -/
def firstMatch (v : Key → Bool) : List Key → Report
  | [] => ⟨[], .NoMatch⟩
  | k :: ks =>
    if v k then ⟨[k], .Match k⟩
    else ⟨k :: (firstMatch v ks).tried, (firstMatch v ks).result⟩

/-- The result `res` names the first candidate of `keys`, in list order, that verifies
under `v`, and is `NoMatch` exactly when no candidate verifies. -/
def FirstVerifying (v : Key → Bool) (keys : List Key) (res : SearchResult) : Prop :=
  (∀ k, res = .Match k ↔
      ∃ pre post, keys = pre ++ k :: post ∧ v k = true ∧ ∀ x ∈ pre, v x = false)
    ∧ (res = .NoMatch ↔ ∀ x ∈ keys, v x = false)

/-- A candidate verifies on a V0 packet of length `N` when
`calcChecksumV0(k, p[0:N-1]) = p[N-1]`. -/
def verifiesV0 (p : Slice) (k : Key) : Bool :=
  decide (calcChecksumV0 k (p.vis.take (p.len - 1)) = .ok (byteAt p.vis (p.len - 1)))

/-- A candidate verifies on a V1 packet when the signature computed for it equals
`p[14:30]` byte for byte. -/
def verifiesV1 (md5 : List Byte → List Byte) (hmacMD5 : List Byte → List Byte → List Byte)
    (p : Slice) (k : Key) : Bool :=
  decide (signatureV1 md5 hmacMD5 k p = .ok ((p.backing.take 30).drop 14))

/-- A second well-formed packet: it differs from `samplePacket` in bytes 2, 4 and 5
and in the expected signature, and in nothing else. -/
def samplePacket2 : Slice :=
  Slice.ofList ([0xEA, 0xD0, 77, 2, 66, 55, 1, 2, 3, 4, 5, 6, 7, 8] ++ List.replicate 16 0xFF
    ++ [0x11, 0x22])

/-- The packet of the round-trip scenario: the magic, a 12-byte header whose byte 1 is
the options size and whose last 8 bytes are the header section, the signature computed
for the key `k`, and the options. -/
def roundTripPacket (md5 : List Byte → List Byte) (hmacMD5 : List Byte → List Byte → List Byte)
    (k : Key) (h0 h2 h3 : Byte) (headerSection options : List Byte) : Slice :=
  Slice.ofList ([0xEA, 0xD0] ++ ([h0, toByte options.length, h2, h3] ++ headerSection)
    ++ hmacMD5 (md5 k) (headerSection ++ le32 (byteSum k % 2 ^ 32) ++ options) ++ options)

/-! ## `uniqueStrings` (extractor.go, lines 188-198) and the start of `main` -/

/-- A Go `map[string]bool`, as the list of its entries, at most one per key. -/
abbrev GoMap := List (Key × Bool)

namespace GoMap

/-- Go `make(map[string]bool)`. -/
def empty : GoMap := []

/-- Go `v, ok := m[k]`: the value (the zero value when absent) and the presence flag. -/
def lookup (m : GoMap) (k : Key) : Bool × Bool :=
  match m.find? (fun e => decide (e.1 = k)) with
  | some e => (e.2, true)
  | none => (false, false)

/-- Go `m[k] = v`. -/
def insert (m : GoMap) (k : Key) (v : Bool) : GoMap :=
  (k, v) :: m.filter (fun e => decide (e.1 ≠ k))

end GoMap

/-- Lines 192-195: the body of the loop of `uniqueStrings`; in
`_, value := keys[entry]` the variable `value` receives the presence flag. -/
def uniqueStep (st : GoMap × List Key) (entry : Key) : GoMap × List Key :=
  let keys := st.1
  let list := st.2
  let value := (keys.lookup entry).2
  if !value then (keys.insert entry true, list ++ [entry]) else (keys, list)

/-- Lines 188-198: `uniqueStrings(slice)`. -/
def uniqueStrings (slice : List Key) : List Key :=
  let keys := GoMap.empty
  let list : List Key := []
  (slice.foldl uniqueStep (keys, list)).2

/-- Lines 50-52: every null byte is removed from a match. -/
def removeNulls (m : Key) : Key := m.filter (fun b => decide (b ≠ 0))

/-- Lines 46-54: the candidate list built from the two lists of matches. -/
def possibleKeysOf (utf16Matches utf8Matches : List Key) : List Key :=
  let possibleKeys := utf16Matches ++ utf8Matches
  let possibleKeys := possibleKeys.map removeNulls
  uniqueStrings possibleKeys

/-- How a run of `main` ends once the matches are known. -/
inductive Outcome where
  | noPossibleKeys
  | noTestPacket (possibleKeys : List Key)
  | decodeError
  | searched (r : Report)
  deriving DecidableEq, Repr

/-- Lines 46-80 of `main`: the candidates are built; an empty candidate list ends the
run with `No possible access keys found` (lines 56-60), an empty test packet ends it
with the list of candidates (lines 62-68), a decoding error ends it (lines 70-74),
and otherwise the packet is dispatched.  `hexDecode` stands for `hex.DecodeString`. -/
def mainFrom (md5 : List Byte → List Byte) (hmacMD5 : List Byte → List Byte → List Byte)
    (hexDecode : List Byte → Option Slice) (utf16Matches utf8Matches : List Key)
    (testPacket : List Byte) : Except Fault Outcome :=
  let possibleKeys := possibleKeysOf utf16Matches utf8Matches
  if possibleKeys.length = 0 then pure .noPossibleKeys
  else if testPacket = [] then pure (.noTestPacket possibleKeys)
  else
    match hexDecode testPacket with
    | none => pure .decodeError
    | some packetBytes => do
      let r ← mainDispatch md5 hmacMD5 possibleKeys packetBytes
      pure (.searched r)

/-- The occurrences of `xs` that are first occurrences: position `i` is kept exactly
when `xs[i]` does not occur among `xs[0..i)`. -/
def firstOccurrences (xs : List Key) : List Key :=
  (List.range xs.length).filterMap
    (fun i => if xs.getD i [] ∈ xs.take i then none else some (xs.getD i []))

/-- The keys tried are as the search prescribes: all candidates when none verifies,
the candidates up to and including the first verifying one otherwise; in both cases an
initial segment of the candidate list. -/
def TriedInOrder (v : Key → Bool) (keys tried : List Key) : Prop :=
  ((∀ x ∈ keys, v x = false) → tried = keys ∧ tried.length = keys.length)
    ∧ (∀ pre k post, keys = pre ++ k :: post → v k = true → (∀ x ∈ pre, v x = false) →
        tried = pre ++ [k])
    ∧ ∃ post, keys = tried ++ post

/-- The variant of lines 117-119 that places the `j`-th trailing byte, counted from the
start `start` of the trailing bytes, at bit position `8 * j`. -/
def lastWordRel (data : List Byte) (start : Nat) : Nat → Nat → Nat → Except Fault Nat
  | fuel, i, lastSum =>
    if i < data.length then
      match fuel with
      | 0 => .error .outOfFuel
      | fuel + 1 => do
        let b ← index data i
        lastWordRel data start fuel (i + 1)
          (lastSum ||| shl32 b.val (((i - start) * 8) % 2 ^ 32))
    else .ok lastSum

/-- The variant of `calcChecksumV0` that reads the trailing bytes as a zero-padded
little-endian word; everything else is as in `calcChecksumV0`. -/
def calcChecksumV0Rel (key : Key) (data : List Byte) : Except Fault Nat := do
  let keyBytes := key
  let number := keyBytes.foldl (fun number b => add8 number b.val) 0
  let sum ← sumWords data data.length 0 0
  let remaining := data.length % 4
  let sum ←
    if remaining > 0 then do
      let lastSum ← lastWordRel data (data.length - remaining) data.length
        (data.length - remaining) 0
      pure (add32 sum lastSum)
    else pure sum
  let number ← addTrailing data data.length ((data.length / 4) * 4) number
  let sumBytes := [toByte sum, toByte (sum >>> 8), toByte (sum >>> 16), toByte (sum >>> 24)]
  let number := sumBytes.foldl (fun number b => add8 number b.val) number
  pure number

/-- The byte `b` with its top bit flipped, `b XOR 0x80`. -/
def flipTop (b : Byte) : Byte := toByte (b.val ^^^ 0x80)

/-! # Theorems -/

/-! ## Lemmas on the arithmetic -/

theorem byteAt_lt (d : List Byte) (i : Nat) : byteAt d i < 256 := (d.getD i 0).isLt

theorem index_of_lt {d : List Byte} {i : Nat} (h : i < d.length) :
    index d i = .ok (d.getD i 0) := by
  simp [index, List.getD, List.getElem?_eq_getElem h]

theorem or_shiftLeft_eq_add {a k : Nat} (b : Nat) (h : a < 2 ^ k) :
    a ||| (b <<< k) = a + b * 2 ^ k := by
  rw [Nat.shiftLeft_eq, Nat.or_comm, Nat.mul_comm b, ← Nat.mul_add_lt_is_or h, Nat.add_comm]

theorem word_or_eq_add {a b c e : Nat} (ha : a < 256) (hb : b < 256) (hc : c < 256)
    (he : e < 256) :
    a ||| shl32 b 8 ||| shl32 c 16 ||| shl32 e 24
      = a + b * 2 ^ 8 + c * 2 ^ 16 + e * 2 ^ 24 := by
  have h1 : shl32 b 8 = b <<< 8 := by
    unfold shl32; rw [Nat.shiftLeft_eq]; apply Nat.mod_eq_of_lt; omega
  have h2 : shl32 c 16 = c <<< 16 := by
    unfold shl32; rw [Nat.shiftLeft_eq]; apply Nat.mod_eq_of_lt; omega
  have h3 : shl32 e 24 = e <<< 24 := by
    unfold shl32; rw [Nat.shiftLeft_eq]; apply Nat.mod_eq_of_lt; omega
  rw [h1, h2, h3, or_shiftLeft_eq_add b (by omega : a < 2 ^ 8),
    or_shiftLeft_eq_add c (by omega : a + b * 2 ^ 8 < 2 ^ 16),
    or_shiftLeft_eq_add e (by omega : a + b * 2 ^ 8 + c * 2 ^ 16 < 2 ^ 24)]

theorem foldl_add8 (l : List Byte) (n : Nat) (hn : n < 256) :
    l.foldl (fun number b => add8 number b.val) n = (n + byteSum l) % 256 := by
  induction l generalizing n with
  | nil => simp [byteSum, Nat.mod_eq_of_lt hn]
  | cons a t ih =>
    rw [List.foldl_cons, ih _ (by unfold add8; omega)]
    simp only [add8, byteSum, List.map_cons, List.sum_cons]
    omega

theorem foldl_add32 (l : List Byte) (n : Nat) (hn : n < 2 ^ 32) :
    l.foldl (fun s b => add32 s b.val) n = (n + byteSum l) % 2 ^ 32 := by
  induction l generalizing n with
  | nil =>
    have h := Nat.mod_eq_of_lt hn
    simp only [List.foldl_nil, byteSum, List.map_nil, List.sum_nil, Nat.add_zero]
    omega
  | cons a t ih =>
    rw [List.foldl_cons, ih _ (by unfold add32; omega)]
    simp only [add32, byteSum, List.map_cons, List.sum_cons]
    omega

/-! ## The loops of `calcChecksumV0` -/

theorem sumWords_eq (d : List Byte) :
    ∀ (fuel j sum : Nat), j ≤ d.length / 4 → d.length / 4 - j ≤ fuel → sum < 2 ^ 32 →
      sumWords d fuel (4 * j) sum
        = .ok ((sum + ∑ t in Finset.Ico j (d.length / 4), groupValue d t) % 2 ^ 32) := by
  intro fuel
  induction fuel with
  | zero =>
    intro j sum hj hf hs
    have hj2 : j = d.length / 4 := by omega
    have hc : ¬ ((4 * j : Nat) : Int) < (d.length : Int) - 3 := by omega
    unfold sumWords
    rw [if_neg hc, ← hj2, Finset.Ico_self, Finset.sum_empty, Nat.add_zero, Nat.mod_eq_of_lt hs]
  | succ fuel ih =>
    intro j sum hj hf hs
    unfold sumWords
    by_cases hc : ((4 * j : Nat) : Int) < (d.length : Int) - 3
    · have h0 : 4 * j < d.length := by omega
      have h1 : 4 * j + 1 < d.length := by omega
      have h2 : 4 * j + 2 < d.length := by omega
      have h3 : 4 * j + 3 < d.length := by omega
      have hj1 : j < d.length / 4 := by omega
      have e4 : 4 * j + 4 = 4 * (j + 1) := by ring
      rw [if_pos hc]
      simp only [index_of_lt h0, index_of_lt h1, index_of_lt h2, index_of_lt h3, bind,
        Except.bind]
      rw [e4, ih (j + 1) _ (by omega) (by omega) (by unfold add32; omega),
        word_or_eq_add (Fin.isLt _) (Fin.isLt _) (Fin.isLt _) (Fin.isLt _),
        Finset.sum_eq_sum_Ico_succ_bot hj1]
      simp only [add32, groupValue, byteAt]
      congr 1
      omega
    · have hj2 : j = d.length / 4 := by omega
      rw [if_neg hc, ← hj2, Finset.Ico_self, Finset.sum_empty, Nat.add_zero,
        Nat.mod_eq_of_lt hs]

theorem addTrailing_eq (d : List Byte) :
    ∀ (fuel i number : Nat), d.length - i ≤ fuel → number < 256 →
      addTrailing d fuel i number = .ok ((number + byteSum (d.drop i)) % 256) := by
  intro fuel
  induction fuel with
  | zero =>
    intro i number hf hn
    have hc : ¬ i < d.length := by omega
    unfold addTrailing
    rw [if_neg hc, List.drop_eq_nil_of_le (by omega)]
    simp [byteSum, Nat.mod_eq_of_lt hn]
  | succ fuel ih =>
    intro i number hf hn
    unfold addTrailing
    by_cases hc : i < d.length
    · rw [if_pos hc]
      simp only [index_of_lt hc, bind, Except.bind]
      rw [ih (i + 1) _ (by omega) (by unfold add8; omega), List.drop_eq_getElem_cons hc]
      simp only [add8, byteSum, List.map_cons, List.sum_cons, List.getD_eq_getElem _ _ hc]
      congr 1
      omega
    · rw [if_neg hc, List.drop_eq_nil_of_le (by omega)]
      simp [byteSum, Nat.mod_eq_of_lt hn]

theorem lane_or_eq_add {r acc b : Nat} (hr : r ≤ 2) (ha : acc < 2 ^ (8 * r)) (hb : b < 256) :
    acc ||| shl32 b ((r * 8) % 2 ^ 32) = acc + b * 2 ^ (8 * r)
      ∧ acc + b * 2 ^ (8 * r) < 2 ^ (8 * (r + 1)) := by
  have hk : (r * 8) % 2 ^ 32 = 8 * r := by omega
  have hp : b * 2 ^ (8 * r) < 2 ^ 32 ∧ acc + b * 2 ^ (8 * r) < 2 ^ (8 * (r + 1)) := by
    interval_cases r <;> norm_num at ha ⊢ <;> omega
  refine ⟨?_, hp.2⟩
  have hs : (b <<< (8 * r)) % 2 ^ 32 = b <<< (8 * r) := by
    rw [Nat.shiftLeft_eq]; exact Nat.mod_eq_of_lt hp.1
  unfold shl32
  rw [hk, hs, or_shiftLeft_eq_add b ha]

theorem lastWord_eq (d : List Byte) :
    ∀ (fuel i acc : Nat), 4 * (d.length / 4) ≤ i → d.length - i ≤ fuel →
      acc < 2 ^ (8 * (i - 4 * (d.length / 4))) →
      lastWord d fuel i acc
        = .ok (acc + ∑ t in Finset.Ico i d.length, byteAt d t * 2 ^ (8 * (t % 4))) := by
  intro fuel
  induction fuel with
  | zero =>
    intro i acc hm hf ha
    have hc : ¬ i < d.length := by omega
    unfold lastWord
    rw [if_neg hc, Finset.Ico_eq_empty (by omega), Finset.sum_empty, Nat.add_zero]
  | succ fuel ih =>
    intro i acc hm hf ha
    unfold lastWord
    by_cases hc : i < d.length
    · have hr : i % 4 = i - 4 * (d.length / 4) := by omega
      have hr2 : i - 4 * (d.length / 4) ≤ 2 := by omega
      have hs : i + 1 - 4 * (d.length / 4) = (i - 4 * (d.length / 4)) + 1 := by omega
      obtain ⟨e1, e2⟩ := lane_or_eq_add hr2 ha (Fin.isLt (d.getD i 0))
      rw [if_pos hc]
      simp only [index_of_lt hc, bind, Except.bind]
      rw [hr, e1, ih (i + 1) _ (by omega) (by omega) (by rw [hs]; exact e2),
        Finset.sum_eq_sum_Ico_succ_bot hc, hr]
      simp only [byteAt, Nat.add_assoc]
    · rw [if_neg hc, Finset.Ico_eq_empty (by omega), Finset.sum_empty, Nat.add_zero]

theorem wordSum_lt (d : List Byte) : wordSum d < 2 ^ 32 := Nat.mod_lt _ (by norm_num)

theorem laneBytes_sum (w : Nat) :
    byteSum [toByte w, toByte (w >>> 8), toByte (w >>> 16), toByte (w >>> 24)] = laneSum w := by
  simp only [byteSum, toByte, laneSum, List.map_cons, List.map_nil, List.sum_cons, List.sum_nil,
    Nat.shiftRight_eq_div_pow]
  omega

/-- The word accumulator after lines 109-121 is the closed form `wordSum`. -/
theorem wordPhase_eq (d : List Byte) :
    ∃ s0, sumWords d d.length 0 0 = .ok s0 ∧
      (d.length % 4 > 0 →
        ∃ l, lastWord d d.length (d.length - d.length % 4) 0 = .ok l ∧ add32 s0 l = wordSum d) ∧
      (¬ d.length % 4 > 0 → s0 = wordSum d) := by
  have hw := sumWords_eq d d.length 0 0 (Nat.zero_le _) (by omega) (by norm_num)
  rw [Nat.mul_zero, Nat.zero_add, ← Finset.range_eq_Ico] at hw
  have e : d.length - d.length % 4 = 4 * (d.length / 4) := by omega
  refine ⟨_, hw, ?_, ?_⟩
  · intro _
    have hl := lastWord_eq d d.length (4 * (d.length / 4)) 0 (le_refl _) (by omega)
      (by positivity)
    rw [e]
    refine ⟨_, hl, ?_⟩
    simp only [add32, wordSum, trailingWord, Nat.zero_add, Nat.mod_add_mod]
  · intro hrem
    have hn : 4 * (d.length / 4) = d.length := by omega
    simp only [wordSum, trailingWord, hn, Finset.Ico_self, Finset.sum_empty, Nat.add_zero]

/-- Closed form of the checksum: the key bytes, the trailing bytes and the four
lanes of the word sum, added mod 256. -/
theorem calcChecksumV0_closed (k : Key) (d : List Byte) :
    calcChecksumV0 k d
      = .ok ((byteSum k + byteSum (d.drop (4 * (d.length / 4))) + laneSum (wordSum d))
          % 256) := by
  obtain ⟨s0, hs0, hpos, hneg⟩ := wordPhase_eq d
  have hk := foldl_add8 k 0 (by norm_num)
  have ht := addTrailing_eq d d.length (d.length / 4 * 4) ((0 + byteSum k) % 256) (by omega)
    (Nat.mod_lt _ (by norm_num))
  have e : d.length / 4 * 4 = 4 * (d.length / 4) := by omega
  have hfin : ∀ w, List.foldl (fun number b => add8 number b.val)
      (((0 + byteSum k) % 256 + byteSum (List.drop (d.length / 4 * 4) d)) % 256)
      [toByte w, toByte (w >>> 8), toByte (w >>> 16), toByte (w >>> 24)]
      = (byteSum k + byteSum (d.drop (4 * (d.length / 4))) + laneSum w) % 256 := by
    intro w
    rw [foldl_add8 _ _ (Nat.mod_lt _ (by norm_num)), laneBytes_sum, e]
    omega
  unfold calcChecksumV0
  simp only [hs0, hk, bind, Except.bind]
  by_cases hrem : d.length % 4 > 0
  · obtain ⟨l, hl, hadd⟩ := hpos hrem
    rw [if_pos hrem]
    simp only [hl, ht, pure, Except.pure, hadd, hfin]
  · rw [if_neg hrem]
    simp only [ht, pure, Except.pure, hfin, hneg hrem]

/-! ## Slices -/

theorem Slice.length_backing (s : Slice) : s.backing.length = s.cap := by
  simp [Slice.backing, Slice.cap]

theorem Slice.slice_ok (s : Slice) {lo hi : Nat} (h1 : lo ≤ hi) (h2 : hi ≤ s.cap) :
    s.slice (lo : Int) (hi : Int) = .ok ⟨(s.backing.take hi).drop lo, s.backing.drop hi⟩ := by
  have h : (0 : Int) ≤ (lo : Int) ∧ (lo : Int) ≤ (hi : Int) ∧ (hi : Int) ≤ (s.cap : Int) := by
    omega
  simp only [Slice.slice, if_pos h, Int.toNat_ofNat]

theorem Slice.slice_error (s : Slice) (lo hi : Nat) (h : hi < lo ∨ s.cap < hi) :
    s.slice (lo : Int) (hi : Int) = .error .sliceBounds := by
  have h : ¬ ((0 : Int) ≤ (lo : Int) ∧ (lo : Int) ≤ (hi : Int) ∧ (hi : Int) ≤ (s.cap : Int)) := by
    omega
  simp only [Slice.slice, if_neg h]

theorem Slice.index_ok (s : Slice) (i : Nat) (h : i < s.len) :
    s.index (i : Int) = .ok (s.vis.getD i 0) := by
  have h0 : ¬ ((i : Int) < 0) := by omega
  have h1 : i < s.vis.length := h
  simp [Slice.index, h0, List.getD, List.getElem?_eq_getElem h1]

theorem Slice.backing_sub (B : List Byte) {lo hi : Nat} (h1 : lo ≤ hi) (h2 : hi ≤ B.length) :
    (⟨(B.take hi).drop lo, B.drop hi⟩ : Slice).backing = B.drop lo := by
  have hl : lo ≤ (B.take hi).length := by rw [List.length_take]; omega
  rw [Slice.backing, ← List.drop_append_of_le_length hl, List.take_append_drop]

theorem Slice.len_sub (B : List Byte) (lo hi : Nat) (h2 : hi ≤ B.length) (t : List Byte) :
    (⟨(B.take hi).drop lo, t⟩ : Slice).len = hi - lo := by
  simp only [Slice.len, List.length_drop, List.length_take]
  omega

/-- What lines 141-146 do on every packet: they succeed exactly when the capacity is
at least 30 and the wrapped upper bound lies between 30 and the capacity. -/
theorem extractV1_eq (p : Slice) :
    extractV1 p =
      if 30 ≤ p.cap ∧ 30 ≤ optionsEnd p ∧ optionsEnd p ≤ p.cap then
        .ok (fieldsV1 p (optionsEnd p))
      else .error .sliceBounds := by
  unfold extractV1
  by_cases h14 : 14 ≤ p.cap
  · have e1 := p.slice_ok (by norm_num : 2 ≤ 14) h14
    simp only [Nat.cast_ofNat] at e1
    rw [e1]
    by_cases h30 : 30 ≤ p.cap
    · have e2 := p.slice_ok (by norm_num : 14 ≤ 30) h30
      simp only [Nat.cast_ofNat] at e2
      rw [e2]
      have hB := p.length_backing
      have hlen := Slice.len_sub p.backing 2 14 (by omega) (p.backing.drop 14)
      have hidx := Slice.index_ok ⟨(p.backing.take 14).drop 2, p.backing.drop 14⟩ 1
        (by rw [hlen]; norm_num)
      have hget : ((p.backing.take 14).drop 2).getD 1 0 = p.backing.getD 3 0 := by
        simp [List.getD, List.getElem?_drop, List.getElem?_take_of_lt]
      have hbk := Slice.backing_sub p.backing (by norm_num : 2 ≤ 14) (by omega)
      have hcap : (⟨(p.backing.take 14).drop 2, p.backing.drop 14⟩ : Slice).cap = p.cap - 2 := by
        rw [← Slice.length_backing, hbk, List.length_drop, hB]
      have e3 := Slice.slice_ok ⟨(p.backing.take 14).drop 2, p.backing.drop 14⟩
        (by norm_num : 4 ≤ 12) (by rw [hcap]; omega)
      rw [hbk] at e3
      simp only [Nat.cast_ofNat, Nat.cast_one] at hidx e3
      have hlen2 : (⟨(p.backing.take 14).drop 2, p.backing.drop 14⟩ : Slice).len = 12 := hlen
      have hhs : List.drop 4 (List.take 12 (List.drop 2 p.backing))
          = List.drop 6 (List.take 14 p.backing) := by
        rw [List.take_drop, List.drop_drop]
      have hsp : List.drop 12 (List.drop 2 p.backing) = List.drop 14 p.backing := by
        rw [List.drop_drop]
      have hoe : (30 + (p.backing.getD 3 0).val) % 256 = optionsEnd p := rfl
      simp only [hidx, hlen2, hget, e3, bind, Except.bind, Nat.cast_ofNat, hhs, hsp, hoe]
      by_cases hopt : 30 ≤ optionsEnd p ∧ optionsEnd p ≤ p.cap
      · have e4 := p.slice_ok hopt.1 hopt.2
        simp only [Nat.cast_ofNat] at e4
        rw [e4, if_pos ⟨h30, hopt⟩]
        rfl
      · have e4 := p.slice_error 30 (optionsEnd p) (by omega)
        simp only [Nat.cast_ofNat] at e4
        have hc : ¬ (30 ≤ p.cap ∧ 30 ≤ optionsEnd p ∧ optionsEnd p ≤ p.cap) := by tauto
        rw [e4, if_neg hc]
    · have e2 := p.slice_error 14 30 (Or.inr (by omega))
      simp only [Nat.cast_ofNat] at e2
      rw [e2]
      have hc : ¬ (30 ≤ p.cap ∧ 30 ≤ optionsEnd p ∧ optionsEnd p ≤ p.cap) := by omega
      rw [if_neg hc]
      rfl
  · have e1 := p.slice_error 2 14 (Or.inr (by omega))
    simp only [Nat.cast_ofNat] at e1
    have hc : ¬ (30 ≤ p.cap ∧ 30 ≤ optionsEnd p ∧ optionsEnd p ≤ p.cap) := by omega
    rw [e1, if_neg hc]
    rfl

/-! ## The checksum: statements -/

/-- C1. For every key `k` and every buffer `d` of length `n`, with `m = 4 * (n / 4)`,
`calcChecksumV0 k d` returns `(S + T + L) mod 256`, where `S` is the sum of the bytes
of `k`, `T` the sum of the trailing bytes `d[m..n)`, `W` the sum mod `2^32` of the
little-endian values of the complete 4-byte groups and of the trailing bytes at their
lanes `8 * (i mod 4)`, and `L` the sum of the four byte lanes of `W`. -/
theorem calcChecksumV0_formula (k : Key) (d : List Byte) :
    calcChecksumV0 k d = .ok
      ((byteSum k
        + byteSum (d.drop (4 * (d.length / 4)))
        + (((∑ j in Finset.range (d.length / 4),
                (byteAt d (4 * j) + byteAt d (4 * j + 1) * 2 ^ 8 + byteAt d (4 * j + 2) * 2 ^ 16
                  + byteAt d (4 * j + 3) * 2 ^ 24)
              + ∑ i in Finset.Ico (4 * (d.length / 4)) d.length,
                  byteAt d i * 2 ^ (8 * (i % 4))) % 2 ^ 32) % 256
          + ((∑ j in Finset.range (d.length / 4),
                (byteAt d (4 * j) + byteAt d (4 * j + 1) * 2 ^ 8 + byteAt d (4 * j + 2) * 2 ^ 16
                  + byteAt d (4 * j + 3) * 2 ^ 24)
              + ∑ i in Finset.Ico (4 * (d.length / 4)) d.length,
                  byteAt d i * 2 ^ (8 * (i % 4))) % 2 ^ 32) / 2 ^ 8 % 256
          + ((∑ j in Finset.range (d.length / 4),
                (byteAt d (4 * j) + byteAt d (4 * j + 1) * 2 ^ 8 + byteAt d (4 * j + 2) * 2 ^ 16
                  + byteAt d (4 * j + 3) * 2 ^ 24)
              + ∑ i in Finset.Ico (4 * (d.length / 4)) d.length,
                  byteAt d i * 2 ^ (8 * (i % 4))) % 2 ^ 32) / 2 ^ 16 % 256
          + ((∑ j in Finset.range (d.length / 4),
                (byteAt d (4 * j) + byteAt d (4 * j + 1) * 2 ^ 8 + byteAt d (4 * j + 2) * 2 ^ 16
                  + byteAt d (4 * j + 3) * 2 ^ 24)
              + ∑ i in Finset.Ico (4 * (d.length / 4)) d.length,
                  byteAt d i * 2 ^ (8 * (i % 4))) % 2 ^ 32) / 2 ^ 24 % 256)) % 256) :=
  calcChecksumV0_closed k d

/-- With fewer than four bytes the word sum is the trailing word, whose lanes are the
bytes themselves. -/
theorem laneSum_wordSum_short (d : List Byte) (h : d.length ≤ 3) :
    laneSum (wordSum d) = byteSum d := by
  rcases d with _ | ⟨a, _ | ⟨b, _ | ⟨c, _ | ⟨e, t⟩⟩⟩⟩
  · decide
  · have ha := a.isLt
    simp [laneSum, wordSum, trailingWord, byteSum, byteAt, Finset.sum_Ico_eq_sum_range,
      Finset.sum_range_succ]
    omega
  · have ha := a.isLt
    have hb := b.isLt
    simp [laneSum, wordSum, trailingWord, byteSum, byteAt, Finset.sum_Ico_eq_sum_range,
      Finset.sum_range_succ]
    omega
  · have ha := a.isLt
    have hb := b.isLt
    have hc := c.isLt
    simp [laneSum, wordSum, trailingWord, byteSum, byteAt, Finset.sum_Ico_eq_sum_range,
      Finset.sum_range_succ]
    omega
  · simp at h

/-- C7. For a buffer of one, two or three bytes the checksum is the key sum plus
twice the sum of the bytes of the buffer, mod 256; for a single byte `b` it is
`(keySum + 2 * b) mod 256`, which differs from `(keySum + b) mod 256` unless `b = 0`. -/
theorem calcChecksumV0_short (k : Key) (d : List Byte) (h : 1 ≤ d.length ∧ d.length ≤ 3) :
    calcChecksumV0 k d = .ok ((byteSum k + 2 * byteSum d) % 256)
      ∧ (∀ b : Byte, calcChecksumV0 k [b] = .ok ((byteSum k + 2 * b.val) % 256))
      ∧ (∀ b : Byte, b ≠ 0 → calcChecksumV0 k [b] ≠ .ok ((byteSum k + b.val) % 256)) := by
  have key : ∀ d : List Byte, d.length ≤ 3 →
      calcChecksumV0 k d = .ok ((byteSum k + 2 * byteSum d) % 256) := by
    intro d hd
    have h0 : d.length / 4 = 0 := by omega
    rw [calcChecksumV0_closed, laneSum_wordSum_short d hd, h0]
    simp only [Nat.mul_zero, List.drop_zero]
    congr 2
    omega
  refine ⟨key d h.2, ?_, ?_⟩
  · intro b
    have := key [b] (by simp)
    simpa [byteSum] using this
  · intro b hb hEq
    have h1 := key [b] (by simp)
    rw [h1] at hEq
    simp only [byteSum, List.map_cons, List.map_nil, List.sum_cons, List.sum_nil,
      Except.ok.injEq] at hEq
    have hb2 : b.val ≠ 0 := fun h0 => hb (Fin.ext h0)
    have hb3 := b.isLt
    omega

theorem calcChecksumV0_short_witness :
    (1 ≤ ([7, 200] : List Byte).length ∧ ([7, 200] : List Byte).length ≤ 3)
      ∧ calcChecksumV0 [0x41, 0x42] [7, 200] = .ok ((byteSum [0x41, 0x42] + 2 * byteSum [7, 200]) % 256) :=
  ⟨by decide, (calcChecksumV0_short [0x41, 0x42] [7, 200] (by decide)).1⟩

theorem byteAt_of_zero {d : List Byte} (h : ∀ b ∈ d, b = 0) (i : Nat) : byteAt d i = 0 := by
  unfold byteAt
  by_cases hi : i < d.length
  · rw [List.getD_eq_getElem _ _ hi, h _ (List.getElem_mem hi)]
    rfl
  · rw [List.getD_eq_default _ _ (by omega)]
    rfl

theorem byteSum_of_zero {d : List Byte} (h : ∀ b ∈ d, b = 0) : byteSum d = 0 := by
  induction d with
  | nil => rfl
  | cons a t ih =>
    have ha : a = 0 := h a (List.mem_cons_self a t)
    have ht := ih (fun b hb => h b (List.mem_cons_of_mem a hb))
    simp only [byteSum, List.map_cons, List.sum_cons] at ht ⊢
    rw [ht, ha]
    rfl

theorem wordSum_of_zero {d : List Byte} (h : ∀ b ∈ d, b = 0) : wordSum d = 0 := by
  simp [wordSum, trailingWord, groupValue, byteAt_of_zero h]

/-- C8. When every byte of the buffer is zero, whatever its length (the empty buffer
included), the checksum is the sum of the bytes of the key mod 256; the known vector
is the key `AB` with four zero bytes, giving `0x83`. -/
theorem calcChecksumV0_zero (k : Key) (d : List Byte) (h : ∀ b ∈ d, b = 0) :
    calcChecksumV0 k d = .ok (byteSum k % 256)
      ∧ calcChecksumV0 [0x41, 0x42] [0, 0, 0, 0] = .ok 0x83 := by
  refine ⟨?_, by decide⟩
  rw [calcChecksumV0_closed, wordSum_of_zero h,
    byteSum_of_zero (fun b hb => h b (List.mem_of_mem_drop hb))]
  rfl

theorem calcChecksumV0_zero_witness :
    (∀ b ∈ ([0, 0, 0, 0, 0] : List Byte), b = 0)
      ∧ calcChecksumV0 [0x61, 0x62, 0x63] [0, 0, 0, 0, 0] = .ok (byteSum [0x61, 0x62, 0x63] % 256) :=
  ⟨by simp, (calcChecksumV0_zero [0x61, 0x62, 0x63] [0, 0, 0, 0, 0] (by simp)).1⟩

/-! ## The V1 signature -/

theorem calculatedSignature_eq (md5 : List Byte → List Byte)
    (hmacMD5 : List Byte → List Byte → List Byte) (k : Key) (hs opts : Slice) :
    calculatedSignature md5 hmacMD5 k hs opts
      = hmacMD5 (md5 k) (hs.vis ++ le32 (byteSum k % 2 ^ 32) ++ opts.vis) := by
  simp only [calculatedSignature, md5Sum, Mac.new, Mac.write, Mac.sum, List.nil_append,
    List.append_nil, foldl_add32 k 0 (by norm_num), Nat.zero_add, le32,
    Nat.shiftRight_eq_div_pow]

theorem length_headerSection (p : Slice) (h : 14 ≤ p.cap) :
    ((p.backing.take 14).drop 6).length = 8 := by
  rw [List.length_drop, List.length_take, p.length_backing]
  omega

/-- C2. Whenever the fields of a packet `p` can be cut out, the signature computed
for a key `k` is the keyed digest, under the key `MD5(k)`, of the message
`p[6:14] ++ LE32(sum of the bytes of k mod 2^32) ++ options`; the three empty writes add
nothing, so the message has `12 + len(options)` bytes; and this signature is the one
compared with the expected signature in the search. -/
theorem checkPacketV1_signature (md5 : List Byte → List Byte)
    (hmacMD5 : List Byte → List Byte → List Byte) (k : Key) (p : Slice) (f : V1Fields)
    (h : extractV1 p = .ok f) :
    signatureV1 md5 hmacMD5 k p
        = .ok (hmacMD5 (md5 k)
            ((p.backing.take 14).drop 6 ++ le32 (byteSum k % 2 ^ 32) ++ f.options.vis))
      ∧ ((p.backing.take 14).drop 6 ++ le32 (byteSum k % 2 ^ 32) ++ f.options.vis).length
          = 12 + f.options.vis.length
      ∧ checkPacketV1 md5 hmacMD5 [k] p
          = .ok ⟨[k],
              if f.expectedSignature.vis = hmacMD5 (md5 k)
                  ((p.backing.take 14).drop 6 ++ le32 (byteSum k % 2 ^ 32) ++ f.options.vis)
              then .Match k else .NoMatch⟩ := by
  have hx := extractV1_eq p
  rw [h] at hx
  by_cases hc : 30 ≤ p.cap ∧ 30 ≤ optionsEnd p ∧ optionsEnd p ≤ p.cap
  · rw [if_pos hc] at hx
    have hf : f = fieldsV1 p (optionsEnd p) := by injection hx
    have hhs : f.headerSection.vis = (p.backing.take 14).drop 6 := by rw [hf]; rfl
    refine ⟨?_, ?_, ?_⟩
    · simp only [signatureV1, h, bind, Except.bind, pure, Except.pure,
        calculatedSignature_eq, hhs]
    · simp only [List.length_append, length_headerSection p (by omega), le32,
        List.length_cons, List.length_nil]
    · simp only [checkPacketV1, h, bind, Except.bind, pure, Except.pure, loopV1, hmacEqual,
        calculatedSignature_eq, hhs, decide_eq_true_eq]
      split <;> rfl
  · rw [if_neg hc] at hx
    cases hx

set_option maxRecDepth 100000 in
theorem checkPacketV1_signature_witness :
    extractV1 samplePacket = .ok (fieldsV1 samplePacket 32)
      ∧ signatureV1 sampleDigest sampleMac [0x61] samplePacket
          = .ok (sampleMac (sampleDigest [0x61])
              ((samplePacket.backing.take 14).drop 6 ++ le32 (byteSum [0x61] % 2 ^ 32)
                ++ (fieldsV1 samplePacket 32).options.vis)) :=
  ⟨by decide,
    (checkPacketV1_signature sampleDigest sampleMac [0x61] samplePacket
      (fieldsV1 samplePacket 32) (by decide)).1⟩

/-! ## Cutting the fields out of a V1 packet -/

theorem byteAt_backing (p : Slice) {i : Nat} (h : i < p.len) :
    byteAt p.backing i = byteAt p.vis i := by
  have h1 : i < p.vis.length := h
  simp [byteAt, Slice.backing, List.getD, List.getElem?_append_left h1]

theorem take_backing (p : Slice) {n : Nat} (h : n ≤ p.len) :
    p.backing.take n = p.vis.take n := by
  have h1 : n ≤ p.vis.length := h
  rw [Slice.backing, List.take_append_of_le_length h1]

theorem Slice.len_le_cap (p : Slice) : p.len ≤ p.cap := by
  simp [Slice.len, Slice.cap]

/-- The part of C3 that the code does satisfy: with an options size of at most 225
the fields are cut out as the layout says. -/
theorem extractV1_wellformed (p : Slice) (h30 : 30 ≤ p.len)
    (hS : 30 + byteAt p.vis 3 ≤ p.len) (h225 : byteAt p.vis 3 ≤ 225) :
    ∃ f, extractV1 p = .ok f
      ∧ f.header.vis = (p.vis.take 14).drop 2
      ∧ f.expectedSignature.vis = (p.vis.take 30).drop 14
      ∧ f.headerSection.vis = (p.vis.take 14).drop 6
      ∧ f.options.vis = (p.vis.take (30 + byteAt p.vis 3)).drop 30
      ∧ f.options.vis.length = byteAt p.vis 3 := by
  have hcap := p.len_le_cap
  have hb : byteAt p.backing 3 = byteAt p.vis 3 := byteAt_backing p (by omega)
  have hoe : optionsEnd p = 30 + byteAt p.vis 3 := by
    unfold optionsEnd
    rw [hb]
    omega
  have hc : 30 ≤ p.cap ∧ 30 ≤ optionsEnd p ∧ optionsEnd p ≤ p.cap := by omega
  refine ⟨fieldsV1 p (optionsEnd p), ?_, ?_, ?_, ?_, ?_, ?_⟩
  · rw [extractV1_eq, if_pos hc]
  · simp only [fieldsV1, take_backing p (by omega : 14 ≤ p.len)]
  · simp only [fieldsV1, take_backing p h30]
  · simp only [fieldsV1, take_backing p (by omega : 14 ≤ p.len)]
  · simp only [fieldsV1, hoe, take_backing p hS]
  · have hl : p.vis.length = p.len := rfl
    simp only [fieldsV1, hoe, take_backing p hS, List.length_drop, List.length_take]
    omega

set_option maxRecDepth 100000 in
theorem optionsEnd_wrapPacket : optionsEnd wrapPacket = 0 := by decide

set_option maxRecDepth 100000 in
theorem wrapPacket_precondition :
    30 ≤ wrapPacket.len ∧ 30 + byteAt wrapPacket.vis 3 ≤ wrapPacket.len := by decide

/-- C3 (defect). On the 256-byte packet `wrapPacket`, which satisfies the precondition
`len >= 30` and `30 + S <= len` with `S = 226`, the upper bound `30+optionsSize` wraps to 0
in `uint8` and the options slice panics: the fields are not cut out, for any candidates. -/
theorem extractV1_wraps_at_226 :
    30 ≤ wrapPacket.len ∧ 30 + byteAt wrapPacket.vis 3 ≤ wrapPacket.len
      ∧ extractV1 wrapPacket = .error .sliceBounds
      ∧ ∀ (md5 : List Byte → List Byte) (hmacMD5 : List Byte → List Byte → List Byte)
          (keys : List Key), checkPacketV1 md5 hmacMD5 keys wrapPacket = .error .sliceBounds := by
  have hx : extractV1 wrapPacket = .error .sliceBounds := by
    have hc : ¬ (30 ≤ wrapPacket.cap ∧ 30 ≤ 0 ∧ 0 ≤ wrapPacket.cap) := by omega
    rw [extractV1_eq, optionsEnd_wrapPacket, if_neg hc]
  refine ⟨wrapPacket_precondition.1, wrapPacket_precondition.2, hx, ?_⟩
  intro md5 hmacMD5 keys
  simp only [checkPacketV1, hx, bind, Except.bind]

/-! ## Dispatch -/

/-- C6. The V1 engine is selected exactly when the packet has at least two bytes, the
first being `0xEA` and the second `0xD0`, whatever follows; every other packet (also
one of length 0 or 1) goes to the V0 engine.  Selecting never fails, and `mainDispatch`
runs the selected engine. -/
theorem dispatch_rule (md5 : List Byte → List Byte)
    (hmacMD5 : List Byte → List Byte → List Byte) (keys : List Key) (p : Slice) :
    selectEngine p
        = .ok (if 2 ≤ p.len ∧ p.vis.getD 0 0 = 0xEA ∧ p.vis.getD 1 0 = 0xD0 then Engine.V1
            else Engine.V0)
      ∧ mainDispatch md5 hmacMD5 keys p
        = (if 2 ≤ p.len ∧ p.vis.getD 0 0 = 0xEA ∧ p.vis.getD 1 0 = 0xD0 then
            checkPacketV1 md5 hmacMD5 keys p
          else checkPacketV0 keys p) := by
  have hsel : selectEngine p
      = .ok (if 2 ≤ p.len ∧ p.vis.getD 0 0 = 0xEA ∧ p.vis.getD 1 0 = 0xD0 then Engine.V1
          else Engine.V0) := by
    unfold selectEngine
    by_cases h2 : 2 ≤ p.len
    · have e0 := p.index_ok 0 (by omega)
      have e1 := p.index_ok 1 (by omega)
      have m0 : index MAGIC_V1 0 = .ok 0xEA := rfl
      have m1 : index MAGIC_V1 1 = .ok 0xD0 := rfl
      simp only [Nat.cast_zero, Nat.cast_one] at e0 e1
      have h2g : p.len ≥ 2 := h2
      simp only [if_pos h2g, e0, e1, m0, m1, bind, Except.bind, pure, Except.pure]
      by_cases ha : p.vis.getD 0 0 = 0xEA
      · by_cases hb : p.vis.getD 1 0 = 0xD0
        · rw [if_pos ha, if_pos hb, if_pos ⟨h2, ha, hb⟩]
        · rw [if_pos ha, if_neg hb, if_neg (fun hc => hb hc.2.2)]
      · rw [if_neg ha, if_neg (fun hc => ha hc.2.1)]
    · have h2g : ¬ p.len ≥ 2 := h2
      simp only [if_neg h2g, pure, Except.pure]
      rw [if_neg (fun hc => h2 hc.1)]
  refine ⟨hsel, ?_⟩
  unfold mainDispatch
  rw [hsel]
  by_cases hc : 2 ≤ p.len ∧ p.vis.getD 0 0 = 0xEA ∧ p.vis.getD 1 0 = 0xD0
  · simp only [if_pos hc, bind, Except.bind]
  · simp only [if_neg hc, bind, Except.bind]

/-! ## Malformed packets -/

set_option maxRecDepth 100000 in
/-- C10 (as stated, refuted). The packet `shortPacket` begins `0xEA 0xD0` and has only
16 bytes, fewer than 30, yet `checkPacketV1` does not fail on it: the slice bounds are
checked against the capacity, the search runs and reports `NoMatch`. -/
theorem shortPacket_not_rejected :
    shortPacket.vis.take 2 = [0xEA, 0xD0] ∧ shortPacket.len < 30
      ∧ checkPacketV1 sampleDigest sampleMac [[0x61]] shortPacket
          = .ok ⟨[[0x61]], .NoMatch⟩ := by
  decide

/-- C10 (amended). For every candidate list and every packet whose capacity is below
30 or below `30 + packet[3]` (for a packet without spare capacity: whose length is),
`checkPacketV1` ends in a slice-bounds failure, which is neither `Match` nor `NoMatch`;
and `checkPacketV0` on a packet without visible bytes ends in an index failure. -/
theorem malformed_fails (md5 : List Byte → List Byte)
    (hmacMD5 : List Byte → List Byte → List Byte) (keys : List Key) (p : Slice)
    (h : p.cap < 30 ∨ p.cap < 30 + byteAt p.backing 3) :
    checkPacketV1 md5 hmacMD5 keys p = .error .sliceBounds
      ∧ ∀ spare : List Byte, checkPacketV0 keys ⟨[], spare⟩ = .error .indexOutOfRange := by
  constructor
  · have hb := byteAt_lt p.backing 3
    have hc : ¬ (30 ≤ p.cap ∧ 30 ≤ optionsEnd p ∧ optionsEnd p ≤ p.cap) := by
      unfold optionsEnd
      omega
    simp only [checkPacketV1, extractV1_eq, if_neg hc, bind, Except.bind]
  · intro spare
    rfl

theorem malformed_fails_witness :
    ((Slice.ofList [0xEA, 0xD0, 0, 5]).cap < 30
        ∨ (Slice.ofList [0xEA, 0xD0, 0, 5]).cap
            < 30 + byteAt (Slice.ofList [0xEA, 0xD0, 0, 5]).backing 3)
      ∧ checkPacketV1 sampleDigest sampleMac [[0x61]] (Slice.ofList [0xEA, 0xD0, 0, 5])
          = .error .sliceBounds :=
  ⟨by decide,
    (malformed_fails sampleDigest sampleMac [[0x61]] (Slice.ofList [0xEA, 0xD0, 0, 5])
      (by decide)).1⟩

/-! ## The search: first verifying candidate -/

theorem firstMatch_spec (v : Key → Bool) (keys : List Key) :
    FirstVerifying v keys (firstMatch v keys).result := by
  induction keys with
  | nil =>
    refine ⟨fun k => ⟨fun h => ?_, fun h => ?_⟩, ⟨fun _ x hx => ?_, fun _ => rfl⟩⟩
    · cases h
    · obtain ⟨pre, post, h, _⟩ := h
      cases pre <;> cases h
    · cases hx
  | cons a t ih =>
    obtain ⟨ihM, ihN⟩ := ih
    by_cases ha : v a = true
    · have hr : (firstMatch v (a :: t)).result = .Match a := by
        simp only [firstMatch, if_pos ha]
      rw [hr]
      refine ⟨fun k => ⟨fun h => ?_, fun h => ?_⟩, ⟨fun h => ?_, fun h => ?_⟩⟩
      · injection h with h
        subst h
        exact ⟨[], t, rfl, ha, fun x hx => by cases hx⟩
      · obtain ⟨pre, post, h, hk, hpre⟩ := h
        cases pre with
        | nil =>
          injection h with h1 _
          rw [h1]
        | cons x pre1 =>
          injection h with h1 _
          have := hpre x (List.mem_cons_self x pre1)
          rw [← h1, ha] at this
          cases this
      · cases h
      · have := h a (List.mem_cons_self a t)
        rw [ha] at this
        cases this
    · have hf : v a = false := by simpa using ha
      have hr : (firstMatch v (a :: t)).result = (firstMatch v t).result := by
        simp only [firstMatch, if_neg ha]
      rw [hr]
      refine ⟨fun k => ⟨fun h => ?_, fun h => ?_⟩, ⟨fun h => ?_, fun h => ?_⟩⟩
      · obtain ⟨pre, post, h1, hk, hpre⟩ := (ihM k).1 h
        refine ⟨a :: pre, post, by rw [h1]; rfl, hk, fun x hx => ?_⟩
        rcases List.mem_cons.1 hx with hx | hx
        · rw [hx]; exact hf
        · exact hpre x hx
      · obtain ⟨pre, post, h1, hk, hpre⟩ := h
        cases pre with
        | nil =>
          injection h1 with h1 _
          rw [h1, hk] at hf
          cases hf
        | cons x pre1 =>
          injection h1 with _ h2
          exact (ihM k).2 ⟨pre1, post, h2, hk,
            fun y hy => hpre y (List.mem_cons_of_mem x hy)⟩
      · intro x hx
        rcases List.mem_cons.1 hx with hx | hx
        · rw [hx]; exact hf
        · exact ihN.1 h x hx
      · exact ihN.2 (fun x hx => h x (List.mem_cons_of_mem a hx))

theorem calcChecksumV0_ok (k : Key) (d : List Byte) : ∃ c, calcChecksumV0 k d = .ok c :=
  ⟨_, calcChecksumV0_closed k d⟩

theorem sliceInit_ok (p : Slice) (h : 1 ≤ p.len) :
    p.slice 0 ((p.len : Int) - 1)
      = .ok ⟨p.vis.take (p.len - 1), p.backing.drop (p.len - 1)⟩ := by
  have hcap := p.len_le_cap
  have e := p.slice_ok (Nat.zero_le (p.len - 1)) (by omega)
  have hc : ((p.len - 1 : Nat) : Int) = (p.len : Int) - 1 := by omega
  rw [hc] at e
  simp only [Nat.cast_zero] at e
  rw [e, List.drop_zero, take_backing p (by omega)]

theorem loopV0_eq (p : Slice) (h : 1 ≤ p.len) (old : Byte) (keys : List Key) :
    loopV0 old p keys
      = .ok (firstMatch
          (fun k => decide (calcChecksumV0 k (p.vis.take (p.len - 1)) = .ok old.val)) keys) := by
  induction keys with
  | nil => rfl
  | cons a t ih =>
    obtain ⟨c, hc⟩ := calcChecksumV0_ok a (p.vis.take (p.len - 1))
    simp only [loopV0, sliceInit_ok p h, hc, ih, bind, Except.bind, firstMatch,
      Except.ok.injEq, decide_eq_true_eq]
    by_cases hco : c = old.val
    · rw [if_pos hco, if_pos hco]
    · rw [if_neg hco, if_neg hco]

theorem checkPacketV0_eq (p : Slice) (h : 1 ≤ p.len) (keys : List Key) :
    checkPacketV0 keys p = .ok (firstMatch (verifiesV0 p) keys) := by
  have hl : p.len - 1 < p.len := by omega
  have e := p.index_ok _ hl
  have hc : ((p.len - 1 : Nat) : Int) = (p.len : Int) - 1 := by omega
  rw [hc] at e
  simp only [checkPacketV0, e, bind, Except.bind, loopV0_eq p h]
  rfl

theorem loopV1_eq (md5 : List Byte → List Byte) (hmacMD5 : List Byte → List Byte → List Byte)
    (f : V1Fields) (keys : List Key) :
    loopV1 md5 hmacMD5 f keys
      = firstMatch (fun k => hmacEqual f.expectedSignature.vis
          (calculatedSignature md5 hmacMD5 k f.headerSection f.options)) keys := by
  induction keys with
  | nil => rfl
  | cons a t ih =>
    simp only [loopV1, firstMatch, ih]

theorem extractV1_ok_iff (p : Slice) (f : V1Fields) (h : extractV1 p = .ok f) :
    f = fieldsV1 p (optionsEnd p) := by
  rw [extractV1_eq] at h
  by_cases hc : 30 ≤ p.cap ∧ 30 ≤ optionsEnd p ∧ optionsEnd p ≤ p.cap
  · rw [if_pos hc] at h
    injection h with h
    exact h.symm
  · rw [if_neg hc] at h
    cases h

theorem checkPacketV1_eq (md5 : List Byte → List Byte)
    (hmacMD5 : List Byte → List Byte → List Byte) (p : Slice) (f : V1Fields)
    (h : extractV1 p = .ok f) (keys : List Key) :
    checkPacketV1 md5 hmacMD5 keys p = .ok (firstMatch (verifiesV1 md5 hmacMD5 p) keys) := by
  have hf := extractV1_ok_iff p f h
  have hv : (fun k => hmacEqual f.expectedSignature.vis
        (calculatedSignature md5 hmacMD5 k f.headerSection f.options))
      = verifiesV1 md5 hmacMD5 p := by
    funext k
    simp only [verifiesV1, signatureV1, h, bind, Except.bind, pure, Except.pure, hmacEqual,
      Except.ok.injEq]
    rw [hf]
    simp only [fieldsV1, eq_comm]
  simp only [checkPacketV1, h, bind, Except.bind, pure, Except.pure, loopV1_eq, hv]

/-- C5. On every packet on which the selected engine does not fail (V0: at least one
byte; V1: the fields can be cut out) and for every candidate list, the search returns,
and its result is `Match k` exactly when `k` is the first candidate in list order that
verifies and `NoMatch` exactly when none verifies.  For V0 a candidate verifies iff
`calcChecksumV0(k, p[0:N-1]) = p[N-1]`, for V1 iff its computed signature equals
`p[14:30]`.  Candidates after the first verifying one play no part. -/
theorem search_first_verifying (md5 : List Byte → List Byte)
    (hmacMD5 : List Byte → List Byte → List Byte) (keys : List Key) (p : Slice) :
    (1 ≤ p.len →
        ∃ r, checkPacketV0 keys p = .ok r ∧ FirstVerifying (verifiesV0 p) keys r.result)
      ∧ (∀ f, extractV1 p = .ok f →
          ∃ r, checkPacketV1 md5 hmacMD5 keys p = .ok r
            ∧ FirstVerifying (verifiesV1 md5 hmacMD5 p) keys r.result) :=
  ⟨fun h => ⟨_, checkPacketV0_eq p h keys, firstMatch_spec _ keys⟩,
    fun f h => ⟨_, checkPacketV1_eq md5 hmacMD5 p f h keys, firstMatch_spec _ keys⟩⟩

set_option maxRecDepth 100000 in
theorem search_first_verifying_witness :
    (1 ≤ (Slice.ofList [3, 8]).len
        ∧ ∃ r, checkPacketV0 [[1], [2], [2]] (Slice.ofList [3, 8]) = .ok r
            ∧ FirstVerifying (verifiesV0 (Slice.ofList [3, 8])) [[1], [2], [2]] r.result)
      ∧ (extractV1 samplePacket = .ok (fieldsV1 samplePacket 32)
        ∧ ∃ r, checkPacketV1 sampleDigest sampleMac [[1], [2]] samplePacket = .ok r
            ∧ FirstVerifying (verifiesV1 sampleDigest sampleMac samplePacket) [[1], [2]]
                r.result) :=
  ⟨⟨by decide,
      (search_first_verifying sampleDigest sampleMac [[1], [2], [2]] (Slice.ofList [3, 8])).1
        (by decide)⟩,
    ⟨by decide,
      (search_first_verifying sampleDigest sampleMac [[1], [2]] samplePacket).2
        (fieldsV1 samplePacket 32) (by decide)⟩⟩

/-! ## The signature depends on the key, the header section and the options only -/

theorem sub_eq_of_byteAt {B B1 : List Byte} {lo hi : Nat} (h1 : hi ≤ B.length)
    (h2 : hi ≤ B1.length) (h : ∀ i, lo ≤ i → i < hi → byteAt B i = byteAt B1 i) :
    (B.take hi).drop lo = (B1.take hi).drop lo := by
  apply List.ext_getElem?
  intro j
  rw [List.getElem?_drop, List.getElem?_drop]
  by_cases hj : lo + j < hi
  · have hb := h (lo + j) (by omega) hj
    have g1 : lo + j < B.length := by omega
    have g2 : lo + j < B1.length := by omega
    simp only [byteAt, List.getD_eq_getElem _ _ g1, List.getD_eq_getElem _ _ g2] at hb
    rw [List.getElem?_take_of_lt hj, List.getElem?_take_of_lt hj,
      List.getElem?_eq_getElem g1, List.getElem?_eq_getElem g2, Fin.ext hb]
  · rw [List.getElem?_take_eq_none (by omega), List.getElem?_take_eq_none (by omega)]

/-- C9. For two packets of the same length (at least 30) that satisfy
`30 + optionsSize = length` and agree on byte 3, on bytes 6..13 and on the option
bytes, the signature computed for a key is the same; nothing is assumed on the
expected signature (bytes 14..29) or on bytes 0, 1, 2, 4 and 5.  With an options size
of at most 225 a signature is indeed computed. -/
theorem signature_independent (md5 : List Byte → List Byte)
    (hmacMD5 : List Byte → List Byte → List Byte) (k : Key) (p q : Slice)
    (hlen : p.len = q.len) (h30 : 30 ≤ p.len) (hpre : 30 + byteAt p.vis 3 = p.len)
    (h3 : byteAt p.vis 3 = byteAt q.vis 3)
    (hhs : ∀ i, 6 ≤ i → i < 14 → byteAt p.vis i = byteAt q.vis i)
    (hopt : ∀ i, 30 ≤ i → i < 30 + byteAt p.vis 3 → byteAt p.vis i = byteAt q.vis i) :
    signatureV1 md5 hmacMD5 k p = signatureV1 md5 hmacMD5 k q
      ∧ (byteAt p.vis 3 ≤ 225 → ∃ sig, signatureV1 md5 hmacMD5 k p = .ok sig) := by
  have hcp := p.len_le_cap
  have hcq := q.len_le_cap
  have hlp : p.vis.length = p.len := rfl
  have hlq : q.vis.length = q.len := rfl
  have hbp : byteAt p.backing 3 = byteAt p.vis 3 := byteAt_backing p (by omega)
  have hbq : byteAt q.backing 3 = byteAt q.vis 3 := byteAt_backing q (by omega)
  have hb := byteAt_lt p.vis 3
  by_cases hS : byteAt p.vis 3 ≤ 225
  · have hoep : optionsEnd p = 30 + byteAt p.vis 3 := by
      unfold optionsEnd; rw [hbp]; omega
    have hoeq : optionsEnd q = 30 + byteAt p.vis 3 := by
      unfold optionsEnd; rw [hbq, ← h3]; omega
    have hcP : 30 ≤ p.cap ∧ 30 ≤ optionsEnd p ∧ optionsEnd p ≤ p.cap := by omega
    have hcQ : 30 ≤ q.cap ∧ 30 ≤ optionsEnd q ∧ optionsEnd q ≤ q.cap := by omega
    have e1 : (p.backing.take 14).drop 6 = (q.backing.take 14).drop 6 := by
      rw [take_backing p (by omega), take_backing q (by omega)]
      exact sub_eq_of_byteAt (by omega) (by omega) hhs
    have e2 : (p.backing.take (30 + byteAt p.vis 3)).drop 30
        = (q.backing.take (30 + byteAt p.vis 3)).drop 30 := by
      rw [take_backing p (by omega), take_backing q (by omega)]
      exact sub_eq_of_byteAt (by omega) (by omega) hopt
    have sp : signatureV1 md5 hmacMD5 k p
        = .ok (hmacMD5 (md5 k) ((p.backing.take 14).drop 6 ++ le32 (byteSum k % 2 ^ 32)
            ++ (p.backing.take (30 + byteAt p.vis 3)).drop 30)) := by
      have hx : extractV1 p = .ok (fieldsV1 p (optionsEnd p)) := by
        rw [extractV1_eq, if_pos hcP]
      simp only [signatureV1, hx, bind, Except.bind, pure, Except.pure,
        calculatedSignature_eq, fieldsV1, hoep]
    have sq : signatureV1 md5 hmacMD5 k q
        = .ok (hmacMD5 (md5 k) ((q.backing.take 14).drop 6 ++ le32 (byteSum k % 2 ^ 32)
            ++ (q.backing.take (30 + byteAt p.vis 3)).drop 30)) := by
      have hx : extractV1 q = .ok (fieldsV1 q (optionsEnd q)) := by
        rw [extractV1_eq, if_pos hcQ]
      simp only [signatureV1, hx, bind, Except.bind, pure, Except.pure,
        calculatedSignature_eq, fieldsV1, hoeq]
    refine ⟨?_, fun _ => ⟨_, sp⟩⟩
    rw [sp, sq, e1, e2]
  · have hoep : optionsEnd p < 30 := by
      unfold optionsEnd; rw [hbp]; omega
    have hoeq : optionsEnd q < 30 := by
      unfold optionsEnd; rw [hbq, ← h3]; omega
    have hcP : ¬ (30 ≤ p.cap ∧ 30 ≤ optionsEnd p ∧ optionsEnd p ≤ p.cap) := by omega
    have hcQ : ¬ (30 ≤ q.cap ∧ 30 ≤ optionsEnd q ∧ optionsEnd q ≤ q.cap) := by omega
    have hxp : extractV1 p = .error .sliceBounds := by rw [extractV1_eq, if_neg hcP]
    have hxq : extractV1 q = .error .sliceBounds := by rw [extractV1_eq, if_neg hcQ]
    refine ⟨?_, fun h => absurd h hS⟩
    simp only [signatureV1, hxp, hxq, bind, Except.bind]

set_option maxRecDepth 100000 in
theorem signature_independent_witness :
    (samplePacket.len = samplePacket2.len ∧ 30 ≤ samplePacket.len
        ∧ 30 + byteAt samplePacket.vis 3 = samplePacket.len
        ∧ samplePacket ≠ samplePacket2)
      ∧ signatureV1 sampleDigest sampleMac [0x61] samplePacket
          = signatureV1 sampleDigest sampleMac [0x61] samplePacket2 :=
  ⟨by decide,
    (signature_independent sampleDigest sampleMac [0x61] samplePacket samplePacket2
      (by decide) (by decide) (by decide) (by decide)
      (fun i h1 h2 => by interval_cases i <;> rfl)
      (fun i h1 h2 => by
        have h3 : i < 32 := h2
        interval_cases i <;> rfl)).1⟩

/-! ## The V1 round trip -/

theorem take_drop_mid (X Y Z : List Byte) :
    ((X ++ Y ++ Z).take (X.length + Y.length)).drop X.length = Y := by
  have h : X.length + Y.length = (X ++ Y).length := by simp
  rw [h, List.take_left, List.drop_left]

theorem roundTripPacket_backing (md5 : List Byte → List Byte)
    (hmacMD5 : List Byte → List Byte → List Byte) (k : Key) (h0 h2 h3 : Byte)
    (hs opts : List Byte) :
    (roundTripPacket md5 hmacMD5 k h0 h2 h3 hs opts).backing
      = [0xEA, 0xD0, h0, toByte opts.length, h2, h3] ++ hs
          ++ hmacMD5 (md5 k) (hs ++ le32 (byteSum k % 2 ^ 32) ++ opts) ++ opts := by
  simp [roundTripPacket, Slice.ofList, Slice.backing]

theorem roundTripPacket_dispatch (md5 : List Byte → List Byte)
    (hmacMD5 : List Byte → List Byte → List Byte) (k : Key) (h0 h2 h3 : Byte)
    (hs opts : List Byte) (keys : List Key) :
    mainDispatch md5 hmacMD5 keys (roundTripPacket md5 hmacMD5 k h0 h2 h3 hs opts)
      = checkPacketV1 md5 hmacMD5 keys (roundTripPacket md5 hmacMD5 k h0 h2 h3 hs opts) := by
  have hsel : selectEngine (roundTripPacket md5 hmacMD5 k h0 h2 h3 hs opts) = .ok .V1 := by
    simp [selectEngine, roundTripPacket, Slice.ofList, Slice.len, Slice.index, MAGIC_V1,
      index, bind, Except.bind, pure, Except.pure]
  simp only [mainDispatch, hsel, bind, Except.bind]

theorem roundTripPacket_size (md5 : List Byte → List Byte)
    (hmacMD5 : List Byte → List Byte → List Byte) (k : Key) (h0 h2 h3 : Byte)
    (hs opts : List Byte) :
    byteAt (roundTripPacket md5 hmacMD5 k h0 h2 h3 hs opts).backing 3 = opts.length % 256 := by
  rw [roundTripPacket_backing]
  simp [byteAt, toByte]

/-- The round trip holds for every options region of at most 225 bytes. -/
theorem roundTrip_upto_225 (md5 : List Byte → List Byte)
    (hmacMD5 : List Byte → List Byte → List Byte) (k : Key) (h0 h2 h3 : Byte)
    (hs opts : List Byte) (h8 : hs.length = 8) (hS : opts.length ≤ 225)
    (h16 : ∀ key msg, (hmacMD5 key msg).length = 16) :
    mainDispatch md5 hmacMD5 [k] (roundTripPacket md5 hmacMD5 k h0 h2 h3 hs opts)
      = .ok ⟨[k], .Match k⟩ := by
  have hB := roundTripPacket_backing md5 hmacMD5 k h0 h2 h3 hs opts
  have hsz := roundTripPacket_size md5 hmacMD5 k h0 h2 h3 hs opts
  have hsig := h16 (md5 k) (hs ++ le32 (byteSum k % 2 ^ 32) ++ opts)
  rw [roundTripPacket_dispatch]
  generalize roundTripPacket md5 hmacMD5 k h0 h2 h3 hs opts = P at hB hsz ⊢
  generalize hsg : hmacMD5 (md5 k) (hs ++ le32 (byteSum k % 2 ^ 32) ++ opts) = sig at hB hsig
  have hX : ([0xEA, 0xD0, h0, toByte opts.length, h2, h3] : List Byte).length = 6 := rfl
  have hcap : P.cap = 30 + opts.length := by
    rw [← P.length_backing, hB]
    simp only [List.length_append, hX, h8, hsig]
  have hoe : optionsEnd P = 30 + opts.length := by
    unfold optionsEnd
    rw [hsz]
    omega
  have hx : extractV1 P = .ok (fieldsV1 P (30 + opts.length)) := by
    rw [extractV1_eq, if_pos (by omega), hoe]
  have hsv : (P.backing.take 14).drop 6 = hs := by
    have := take_drop_mid [0xEA, 0xD0, h0, toByte opts.length, h2, h3] hs (sig ++ opts)
    rw [hX, h8, ← List.append_assoc] at this
    rw [hB]
    exact this
  have hev : (P.backing.take 30).drop 14 = sig := by
    have := take_drop_mid ([0xEA, 0xD0, h0, toByte opts.length, h2, h3] ++ hs) sig opts
    rw [List.length_append, hX, h8, hsig] at this
    rw [hB]
    exact this
  have hov : (P.backing.take (30 + opts.length)).drop 30 = opts := by
    have := take_drop_mid ([0xEA, 0xD0, h0, toByte opts.length, h2, h3] ++ hs ++ sig) opts []
    rw [List.length_append, List.length_append, hX, h8, hsig, List.append_nil] at this
    rw [hB]
    exact this
  simp only [checkPacketV1, hx, bind, Except.bind, pure, Except.pure, loopV1, hmacEqual,
    calculatedSignature_eq, fieldsV1, hsv, hev, hov, hsg, decide_True, if_true]

/-- From 226 option bytes on, the upper bound `30+optionsSize` wraps below 30 and the
round-trip packet is refused with a slice-bounds panic. -/
theorem roundTrip_wraps (md5 : List Byte → List Byte)
    (hmacMD5 : List Byte → List Byte → List Byte) (k : Key) (h0 h2 h3 : Byte)
    (hs opts : List Byte) (keys : List Key) (h : 226 ≤ opts.length ∧ opts.length ≤ 255) :
    mainDispatch md5 hmacMD5 keys (roundTripPacket md5 hmacMD5 k h0 h2 h3 hs opts)
      = .error .sliceBounds := by
  have hsz := roundTripPacket_size md5 hmacMD5 k h0 h2 h3 hs opts
  rw [roundTripPacket_dispatch]
  generalize roundTripPacket md5 hmacMD5 k h0 h2 h3 hs opts = P at hsz ⊢
  have hoe : optionsEnd P < 30 := by
    unfold optionsEnd
    rw [hsz]
    omega
  have hx : extractV1 P = .error .sliceBounds := by
    rw [extractV1_eq, if_neg (by omega)]
  simp only [checkPacketV1, hx, bind, Except.bind]

/-- C4 (defect). The round-trip packet built for a key `k`, any header bytes, any
header section and 226 option bytes `b` (a size that fits the one-byte field) is
dispatched to `checkPacketV1`, but the search over `[k]` does not report `Match k`: the
upper bound `30+optionsSize` wraps in `uint8` and the options slice panics. -/
theorem roundTrip_fails_at_226 (md5 : List Byte → List Byte)
    (hmacMD5 : List Byte → List Byte → List Byte) (k : Key) (h0 h2 h3 b : Byte)
    (hs : List Byte) :
    mainDispatch md5 hmacMD5 [k]
        (roundTripPacket md5 hmacMD5 k h0 h2 h3 hs (List.replicate 226 b))
      = .error .sliceBounds :=
  roundTrip_wraps md5 hmacMD5 k h0 h2 h3 hs (List.replicate 226 b) [k]
    (by rw [List.length_replicate]; omega)

theorem roundTrip_upto_225_witness :
    (([1, 2, 3, 4, 5, 6, 7, 8] : List Byte).length = 8 ∧ ([0x11, 0x22] : List Byte).length ≤ 225)
      ∧ mainDispatch sampleDigest sampleMac [[0x61]]
          (roundTripPacket sampleDigest sampleMac [0x61] 9 8 7 [1, 2, 3, 4, 5, 6, 7, 8]
            [0x11, 0x22])
        = .ok ⟨[[0x61]], .Match [0x61]⟩ :=
  ⟨by decide,
    roundTrip_upto_225 sampleDigest sampleMac [0x61] 9 8 7 [1, 2, 3, 4, 5, 6, 7, 8]
      [0x11, 0x22] (by decide) (by decide)
      (fun key msg => by simp [sampleMac])⟩

/-! ## The empty candidate list -/

theorem uniqueStrings_nil : uniqueStrings [] = [] := rfl

/-- C11 (as stated, refuted). The dispatch followed by the selected engine, run on the
empty candidate list, fails on the empty packet (the V0 engine reads the last byte
first) and on the two-byte packet `EA D0` (the V1 engine slices the header first). -/
theorem empty_candidates_can_fail :
    mainDispatch sampleDigest sampleMac [] (Slice.ofList []) = .error .indexOutOfRange
      ∧ mainDispatch sampleDigest sampleMac [] (Slice.ofList [0xEA, 0xD0])
          = .error .sliceBounds := by
  decide

/-- C11 (amended). In `main` an empty candidate list ends the run with
`No possible access keys found` before the test packet is decoded or dispatched, for
every test packet and without failure; and the dispatch followed by the selected
engine, run on the empty candidate list, reports `NoMatch` with no key tried (no
checksum and no signature computed) on every packet that the engine can read: a V0
packet of at least one byte, a V1 packet whose fields can be cut out. -/
theorem empty_candidates (md5 : List Byte → List Byte)
    (hmacMD5 : List Byte → List Byte → List Byte) (hexDecode : List Byte → Option Slice)
    (utf16Matches utf8Matches : List Key) (testPacket : List Byte) (p : Slice)
    (h : possibleKeysOf utf16Matches utf8Matches = []) :
    mainFrom md5 hmacMD5 hexDecode utf16Matches utf8Matches testPacket = .ok .noPossibleKeys
      ∧ ((selectEngine p = .ok .V0 ∧ 1 ≤ p.len) ∨
            (selectEngine p = .ok .V1 ∧ ∃ f, extractV1 p = .ok f) →
          mainDispatch md5 hmacMD5 [] p = .ok ⟨[], .NoMatch⟩) := by
  constructor
  · simp only [mainFrom, h, List.length_nil, if_true, pure, Except.pure]
  · rintro (⟨hsel, hlen⟩ | ⟨hsel, f, hf⟩)
    · simp only [mainDispatch, hsel, bind, Except.bind, checkPacketV0_eq p hlen, firstMatch]
    · simp only [mainDispatch, hsel, bind, Except.bind, checkPacketV1_eq md5 hmacMD5 p f hf,
        firstMatch]

theorem empty_candidates_witness :
    possibleKeysOf [] [] = []
      ∧ mainFrom sampleDigest sampleMac (fun _ => none) [] [] [0x65, 0x61] = .ok .noPossibleKeys :=
  ⟨rfl,
    (empty_candidates sampleDigest sampleMac (fun _ => none) [] [] [0x65, 0x61]
      (Slice.ofList []) rfl).1⟩

/-! ## `uniqueStrings` -/

theorem GoMap.lookup_present (m : GoMap) (k : Key) :
    (m.lookup k).2 = true ↔ ∃ e ∈ m, e.1 = k := by
  unfold GoMap.lookup
  cases h : m.find? (fun e => decide (e.1 = k)) with
  | none =>
    rw [List.find?_eq_none] at h
    constructor
    · intro hc
      cases hc
    · rintro ⟨e, he, hk⟩
      exact absurd (by simpa using hk) (h e he)
  | some e =>
    constructor
    · intro _
      exact ⟨e, List.mem_of_find?_eq_some h, by simpa using List.find?_some h⟩
    · intro _
      rfl

theorem GoMap.lookup_insert (m : GoMap) (k s : Key) (v : Bool) :
    ((m.insert k v).lookup s).2 = true ↔ s = k ∨ (m.lookup s).2 = true := by
  rw [GoMap.lookup_present, GoMap.lookup_present]
  constructor
  · rintro ⟨e, he, hs⟩
    rcases List.mem_cons.1 he with he | he
    · left
      rw [← hs, he]
    · right
      exact ⟨e, (List.mem_filter.1 he).1, hs⟩
  · rintro (hs | ⟨e, he, hs⟩)
    · exact ⟨(k, v), List.mem_cons_self _ _, hs.symm⟩
    · by_cases hk : s = k
      · exact ⟨(k, v), List.mem_cons_self _ _, hk.symm⟩
      · refine ⟨e, List.mem_cons_of_mem _ (List.mem_filter.2 ⟨he, ?_⟩), hs⟩
        rw [hs]
        simpa using hk

theorem uniqueStep_eq (st : GoMap × List Key) (x : Key) :
    uniqueStep st x
      = if (st.1.lookup x).2 = true then st else (st.1.insert x true, st.2 ++ [x]) := by
  unfold uniqueStep
  by_cases h : (st.1.lookup x).2 = true
  · simp [h]
  · simp [h]

/-- After the loop has run over `xs`, the map holds exactly the strings of `xs`. -/
theorem uniqueLoop_present (xs : List Key) (s : Key) :
    (((xs.foldl uniqueStep (GoMap.empty, [])).1).lookup s).2 = true ↔ s ∈ xs := by
  induction xs using List.reverseRecOn generalizing s with
  | nil =>
    rw [List.foldl_nil, GoMap.lookup_present]
    constructor
    · rintro ⟨e, he, _⟩
      cases he
    · intro h
      cases h
  | append_singleton xs x ih =>
    rw [List.foldl_append, List.foldl_cons, List.foldl_nil, List.mem_append,
      List.mem_singleton, uniqueStep_eq]
    by_cases hx : ((xs.foldl uniqueStep (GoMap.empty, [])).1.lookup x).2 = true
    · rw [if_pos hx, ih]
      constructor
      · exact Or.inl
      · rintro (h | h)
        · exact h
        · rw [h]
          exact (ih x).1 hx
    · rw [if_neg hx, GoMap.lookup_insert, ih]
      tauto

/-- The loop appends a string exactly when it has not occurred before. -/
theorem uniqueStrings_snoc (xs : List Key) (x : Key) :
    uniqueStrings (xs ++ [x]) = uniqueStrings xs ++ (if x ∈ xs then [] else [x]) := by
  unfold uniqueStrings
  simp only [List.foldl_append, List.foldl_cons, List.foldl_nil]
  rw [uniqueStep_eq]
  by_cases hx : x ∈ xs
  · rw [if_pos ((uniqueLoop_present xs x).2 hx), if_pos hx, List.append_nil]
  · rw [if_neg (fun h => hx ((uniqueLoop_present xs x).1 h)), if_neg hx]

theorem firstOccurrences_snoc (xs : List Key) (x : Key) :
    firstOccurrences (xs ++ [x]) = firstOccurrences xs ++ (if x ∈ xs then [] else [x]) := by
  unfold firstOccurrences
  have hlen : (xs ++ [x]).length = xs.length + 1 := by simp
  rw [hlen, List.range_succ, List.filterMap_append]
  congr 1
  · apply List.filterMap_congr
    intro i hi
    have hi2 : i < xs.length := List.mem_range.1 hi
    rw [List.getD_append _ _ _ _ hi2, List.take_append_of_le_length (Nat.le_of_lt hi2)]
  · have h1 : (xs ++ [x]).getD xs.length [] = x := by
      rw [List.getD_append_right _ _ _ _ (Nat.le_refl _)]
      simp
    have h2 : (xs ++ [x]).take xs.length = xs := by
      rw [List.take_append_of_le_length (Nat.le_refl _), List.take_length]
    simp only [List.filterMap_cons, List.filterMap_nil, h1, h2]
    by_cases hx : x ∈ xs
    · simp [hx]
    · simp [hx]

theorem uniqueStrings_eq_firstOccurrences (xs : List Key) :
    uniqueStrings xs = firstOccurrences xs := by
  induction xs using List.reverseRecOn with
  | nil => rfl
  | append_singleton xs x ih => rw [uniqueStrings_snoc, firstOccurrences_snoc, ih]

theorem mem_uniqueStrings (xs : List Key) (s : Key) : s ∈ uniqueStrings xs ↔ s ∈ xs := by
  induction xs using List.reverseRecOn with
  | nil => rfl
  | append_singleton xs x ih =>
    rw [uniqueStrings_snoc, List.mem_append, List.mem_append, ih, List.mem_singleton]
    by_cases hx : x ∈ xs
    · rw [if_pos hx]
      constructor
      · rintro (h | h)
        · exact Or.inl h
        · cases h
      · rintro (h | h)
        · exact Or.inl h
        · rw [h]
          exact Or.inl hx
    · rw [if_neg hx, List.mem_singleton]

theorem nodup_uniqueStrings (xs : List Key) : (uniqueStrings xs).Nodup := by
  induction xs using List.reverseRecOn with
  | nil => exact List.nodup_nil
  | append_singleton xs x ih =>
    rw [uniqueStrings_snoc]
    by_cases hx : x ∈ xs
    · rw [if_pos hx, List.append_nil]
      exact ih
    · rw [if_neg hx]
      refine List.Nodup.append ih (List.nodup_singleton x) ?_
      intro s hs hs2
      rw [List.mem_singleton] at hs2
      rw [hs2, mem_uniqueStrings] at hs
      exact hx hs

theorem sublist_uniqueStrings (xs : List Key) : (uniqueStrings xs).Sublist xs := by
  induction xs using List.reverseRecOn with
  | nil => exact List.Sublist.refl _
  | append_singleton xs x ih =>
    rw [uniqueStrings_snoc]
    refine List.Sublist.append ih ?_
    by_cases hx : x ∈ xs
    · rw [if_pos hx]
      exact List.nil_sublist _
    · rw [if_neg hx]

theorem uniqueStrings_of_nodup (xs : List Key) (h : xs.Nodup) : uniqueStrings xs = xs := by
  induction xs using List.reverseRecOn with
  | nil => rfl
  | append_singleton xs x ih =>
    have h2 := List.nodup_append.1 h
    have hx : x ∉ xs := fun hx => h2.2.2 hx (List.mem_singleton_self x)
    rw [uniqueStrings_snoc, if_neg hx, ih h2.1]

/-- C12. For every list `xs`, `uniqueStrings xs` contains no string twice, contains
exactly the strings of `xs`, is a subsequence of `xs`, and keeps position `i` of `xs`
exactly when `xs[i]` does not occur among the earlier elements (the first occurrences,
in their order); it leaves a list without duplicates unchanged and is idempotent. -/
theorem uniqueStrings_spec (xs : List Key) :
    (uniqueStrings xs).Nodup
      ∧ (∀ s, s ∈ uniqueStrings xs ↔ s ∈ xs)
      ∧ (uniqueStrings xs).Sublist xs
      ∧ uniqueStrings xs
          = (List.range xs.length).filterMap
              (fun i => if xs.getD i [] ∈ xs.take i then none else some (xs.getD i []))
      ∧ (xs.Nodup → uniqueStrings xs = xs)
      ∧ uniqueStrings (uniqueStrings xs) = uniqueStrings xs :=
  ⟨nodup_uniqueStrings xs, mem_uniqueStrings xs, sublist_uniqueStrings xs,
    uniqueStrings_eq_firstOccurrences xs, uniqueStrings_of_nodup xs,
    uniqueStrings_of_nodup _ (nodup_uniqueStrings xs)⟩

theorem uniqueStrings_spec_witness :
    ([[0x61], [0x62], [0x63]] : List Key).Nodup
      ∧ uniqueStrings [[0x61], [0x62], [0x63]] = [[0x61], [0x62], [0x63]]
      ∧ uniqueStrings [[0x61], [0x62], [0x61], [0x63], [0x62]] = [[0x61], [0x62], [0x63]] :=
  ⟨by decide,
    (uniqueStrings_spec [[0x61], [0x62], [0x63]]).2.2.2.2.1 (by decide),
    by decide⟩

/-! ## Sensitivity and collisions of the checksum -/

/-- C13. The checksum is sensitive to its data but not collision-free: the buffers
`01 02 03 04 05` and `01 02 09 04 05` differ in exactly one byte (index 2) and have
different checksums under the key `AB`, while the different buffers `01 02 03 04` and
`02 01 03 04`, of equal length, have the same checksum. -/
theorem checksum_sensitive_not_injective :
    (∃ (k : Key) (d e : List Byte) (i : Nat) (a b : Nat),
        d.length = e.length ∧ i < d.length ∧ byteAt d i ≠ byteAt e i
          ∧ (∀ j, j ≠ i → byteAt d j = byteAt e j)
          ∧ calcChecksumV0 k d = .ok a ∧ calcChecksumV0 k e = .ok b ∧ a ≠ b)
      ∧ (∃ (k : Key) (d e : List Byte) (a : Nat),
          d ≠ e ∧ d.length = e.length
            ∧ calcChecksumV0 k d = .ok a ∧ calcChecksumV0 k e = .ok a) := by
  constructor
  · refine ⟨[0x41, 0x42], [1, 2, 3, 4, 5], [1, 2, 9, 4, 5], 2, 151, 157,
      rfl, by decide, by decide, ?_, by decide, by decide, by decide⟩
    intro j hj
    rcases j with _ | _ | _ | _ | _ | j
    · rfl
    · rfl
    · exact absurd rfl hj
    · rfl
    · rfl
    · rfl
  · exact ⟨[0x41, 0x42], [1, 2, 3, 4], [2, 1, 3, 4], 141, by decide, rfl, by decide, by decide⟩

/-! ## The keys tried -/

theorem firstMatch_tried (v : Key → Bool) (keys : List Key) :
    TriedInOrder v keys (firstMatch v keys).tried := by
  induction keys with
  | nil =>
    refine ⟨fun _ => ⟨rfl, rfl⟩, ?_, ⟨[], rfl⟩⟩
    intro pre k post h
    cases pre <;> cases h
  | cons a t ih =>
    obtain ⟨ihAll, ihFirst, post, hpost⟩ := ih
    by_cases ha : v a = true
    · have hr : (firstMatch v (a :: t)).tried = [a] := by
        simp only [firstMatch, if_pos ha]
      rw [hr]
      refine ⟨fun h => ?_, ?_, ⟨t, rfl⟩⟩
      · have := h a (List.mem_cons_self a t)
        rw [ha] at this
        cases this
      · intro pre k post1 h hk hpre
        cases pre with
        | nil =>
          injection h with h1 _
          rw [h1]
          rfl
        | cons x pre1 =>
          injection h with h1 _
          have := hpre x (List.mem_cons_self x pre1)
          rw [← h1, ha] at this
          cases this
    · have hf : v a = false := by simpa using ha
      have hr : (firstMatch v (a :: t)).tried = a :: (firstMatch v t).tried := by
        simp only [firstMatch, if_neg ha]
      rw [hr]
      refine ⟨fun h => ?_, ?_, ⟨post, by rw [List.cons_append, ← hpost]⟩⟩
      · obtain ⟨h1, h2⟩ := ihAll (fun x hx => h x (List.mem_cons_of_mem a hx))
        exact ⟨by rw [h1], by rw [List.length_cons, List.length_cons, h2]⟩
      · intro pre k post1 h hk hpre
        cases pre with
        | nil =>
          injection h with h1 _
          rw [h1, hk] at hf
          cases hf
        | cons x pre1 =>
          injection h with h1 h2
          rw [ihFirst pre1 k post1 h2 hk (fun y hy => hpre y (List.mem_cons_of_mem x hy)),
            h1]
          rfl

/-- C14. On every packet on which the selected engine does not fail and for every
candidate list `cs`, the keys announced by `Trying key:` are exactly `cs` when no
candidate verifies (as many verifications as candidates) and exactly the candidates up
to and including the first verifying one otherwise; they always form an initial segment
of `cs`, so no candidate is tried twice and none after the first match. -/
theorem tried_keys (md5 : List Byte → List Byte)
    (hmacMD5 : List Byte → List Byte → List Byte) (keys : List Key) (p : Slice) :
    (1 ≤ p.len →
        ∃ r, checkPacketV0 keys p = .ok r ∧ TriedInOrder (verifiesV0 p) keys r.tried)
      ∧ (∀ f, extractV1 p = .ok f →
          ∃ r, checkPacketV1 md5 hmacMD5 keys p = .ok r
            ∧ TriedInOrder (verifiesV1 md5 hmacMD5 p) keys r.tried) :=
  ⟨fun h => ⟨_, checkPacketV0_eq p h keys, firstMatch_tried _ keys⟩,
    fun f h => ⟨_, checkPacketV1_eq md5 hmacMD5 p f h keys, firstMatch_tried _ keys⟩⟩

set_option maxRecDepth 100000 in
theorem tried_keys_witness :
    (1 ≤ (Slice.ofList [3, 8]).len
        ∧ ∃ r, checkPacketV0 [[1], [2], [2], [5]] (Slice.ofList [3, 8]) = .ok r
            ∧ TriedInOrder (verifiesV0 (Slice.ofList [3, 8])) [[1], [2], [2], [5]] r.tried)
      ∧ checkPacketV0 [[1], [2], [2], [5]] (Slice.ofList [3, 8])
          = .ok ⟨[[1], [2]], .Match [2]⟩
      ∧ checkPacketV0 [[1], [5]] (Slice.ofList [3, 8]) = .ok ⟨[[1], [5]], .NoMatch⟩ :=
  ⟨⟨by decide,
      (tried_keys sampleDigest sampleMac [[1], [2], [2], [5]] (Slice.ofList [3, 8])).1
        (by decide)⟩,
    by decide, by decide⟩

/-! ## The wrap of the options bound -/

/-- C15. For every packet of at least 30 bytes whose options-size byte is 226 or more,
however long the packet is, the header and signature slices succeed, the upper bound
`30+optionsSize` computed in `uint8` is `packet[3] - 226`, a value below 30, the options
slice `packetBytes[30:30+optionsSize]` panics, and `checkPacketV1` fails for every
candidate list. -/
theorem options_bound_wraps (md5 : List Byte → List Byte)
    (hmacMD5 : List Byte → List Byte → List Byte) (keys : List Key) (p : Slice)
    (h30 : 30 ≤ p.len) (hS : 226 ≤ byteAt p.vis 3) :
    optionsEnd p = byteAt p.vis 3 - 226
      ∧ optionsEnd p < 30
      ∧ (∃ hd, p.slice 2 14 = .ok hd)
      ∧ (∃ sg, p.slice 14 30 = .ok sg)
      ∧ p.slice 30 ((optionsEnd p : Nat) : Int) = .error .sliceBounds
      ∧ checkPacketV1 md5 hmacMD5 keys p = .error .sliceBounds := by
  have hcap := p.len_le_cap
  have hb : byteAt p.backing 3 = byteAt p.vis 3 := byteAt_backing p (by omega)
  have hlt := byteAt_lt p.vis 3
  have hoe : optionsEnd p = byteAt p.vis 3 - 226 := by
    unfold optionsEnd
    rw [hb]
    omega
  have hx : extractV1 p = .error .sliceBounds := by
    rw [extractV1_eq, if_neg (by omega)]
  have e1 := p.slice_ok (by norm_num : 2 ≤ 14) (by omega)
  have e2 := p.slice_ok (by norm_num : 14 ≤ 30) (by omega)
  have e3 := p.slice_error 30 (optionsEnd p) (Or.inl (by omega))
  simp only [Nat.cast_ofNat] at e1 e2 e3
  refine ⟨hoe, by omega, ⟨_, e1⟩, ⟨_, e2⟩, e3, ?_⟩
  simp only [checkPacketV1, hx, bind, Except.bind]

set_option maxRecDepth 100000 in
theorem options_bound_wraps_witness :
    (30 ≤ (Slice.ofList ([0xEA, 0xD0, 0, 240] ++ List.replicate 296 7)).len
        ∧ 226 ≤ byteAt (Slice.ofList ([0xEA, 0xD0, 0, 240] ++ List.replicate 296 7)).vis 3)
      ∧ checkPacketV1 sampleDigest sampleMac [[0x61]]
          (Slice.ofList ([0xEA, 0xD0, 0, 240] ++ List.replicate 296 7)) = .error .sliceBounds :=
  ⟨by decide,
    (options_bound_wraps sampleDigest sampleMac [[0x61]]
      (Slice.ofList ([0xEA, 0xD0, 0, 240] ++ List.replicate 296 7))
      (by decide) (by decide)).2.2.2.2.2⟩

/-! ## The checksum sees the key through its byte sum only -/

theorem checkPacketV0_single (p : Slice) (h : 1 ≤ p.len) (k : Key) :
    checkPacketV0 [k] p
      = .ok ⟨[k], if verifiesV0 p k = true then .Match k else .NoMatch⟩ := by
  rw [checkPacketV0_eq p h]
  by_cases hv : verifiesV0 p k = true
  · simp only [firstMatch, if_pos hv]
  · simp only [firstMatch, if_neg hv]

/-- C16. Two keys with equal byte sums mod 256 (in particular two keys that are
permutations of each other) have the same checksum on every buffer, and the checksum
is returned; hence on every V0 packet of at least one byte one of them verifies in
`checkPacketV0` exactly when the other does. -/
theorem checksum_key_sum_only (k1 k2 : Key) (d : List Byte)
    (h : byteSum k1 % 256 = byteSum k2 % 256) :
    (∃ c, calcChecksumV0 k1 d = .ok c ∧ calcChecksumV0 k2 d = .ok c)
      ∧ (∀ p : Slice, 1 ≤ p.len →
          verifiesV0 p k1 = verifiesV0 p k2
            ∧ (checkPacketV0 [k1] p = .ok ⟨[k1], .Match k1⟩
                ↔ checkPacketV0 [k2] p = .ok ⟨[k2], .Match k2⟩))
      ∧ (∀ ka kb : Key, ka.Perm kb → byteSum ka % 256 = byteSum kb % 256) := by
  have heq : ∀ e : List Byte, calcChecksumV0 k1 e = calcChecksumV0 k2 e := by
    intro e
    rw [calcChecksumV0_closed, calcChecksumV0_closed]
    congr 1
    omega
  refine ⟨⟨_, calcChecksumV0_closed k1 d, by rw [← heq]; exact calcChecksumV0_closed k1 d⟩,
    ?_, ?_⟩
  · intro p hp
    have hv : verifiesV0 p k1 = verifiesV0 p k2 := by
      unfold verifiesV0
      rw [heq]
    refine ⟨hv, ?_⟩
    rw [checkPacketV0_single p hp, checkPacketV0_single p hp, hv]
    by_cases hb : verifiesV0 p k2 = true
    · simp [hb]
    · simp [hb]
  · intro ka kb hperm
    unfold byteSum
    rw [(hperm.map Fin.val).sum_eq]

theorem checksum_key_sum_only_witness :
    byteSum [0x61, 0x62, 0x63] % 256 = byteSum [0x63, 0x61, 0x62] % 256
      ∧ ∃ c, calcChecksumV0 [0x61, 0x62, 0x63] [9, 8, 7, 6, 5] = .ok c
          ∧ calcChecksumV0 [0x63, 0x61, 0x62] [9, 8, 7, 6, 5] = .ok c :=
  ⟨by decide,
    (checksum_key_sum_only [0x61, 0x62, 0x63] [0x63, 0x61, 0x62] [9, 8, 7, 6, 5]
      (by decide)).1⟩

/-! ## Flipping the top bit of a trailing byte -/

theorem calcChecksumV0_short_eq (k : Key) (d : List Byte) (hd : d.length ≤ 3) :
    calcChecksumV0 k d = .ok ((byteSum k + 2 * byteSum d) % 256) := by
  have h0 : d.length / 4 = 0 := by omega
  rw [calcChecksumV0_closed, laneSum_wordSum_short d hd, h0]
  simp only [Nat.mul_zero, List.drop_zero]
  congr 2
  omega

set_option maxRecDepth 100000 in
theorem flipTop_val (b : Byte) : (flipTop b).val % 128 = b.val % 128 ∧ flipTop b ≠ b := by
  revert b
  decide

theorem byteSum_set (d : List Byte) (i : Nat) (b : Byte) (hi : i < d.length) :
    byteSum (d.set i b) + byteAt d i = byteSum d + b.val := by
  induction d generalizing i with
  | nil => cases hi
  | cons a t ih =>
    cases i with
    | zero =>
      simp only [List.set_cons_zero, byteSum, List.map_cons, List.sum_cons, byteAt,
        List.getD_cons_zero]
      omega
    | succ j =>
      have hj : j < t.length := by simpa using hi
      have := ih j hj
      simp only [List.set_cons_succ, byteSum, List.map_cons, List.sum_cons, byteAt,
        List.getD_cons_succ] at this ⊢
      omega

/-- C17. For a buffer of one, two or three bytes and any index inside it, replacing the
byte at that index by the byte with its top bit flipped (`XOR 0x80`) changes the buffer
but leaves the checksum unchanged: the doubled contribution of the byte changes by 256. -/
theorem top_bit_flip_undetected (k : Key) (d : List Byte) (i : Nat)
    (h : 1 ≤ d.length ∧ d.length ≤ 3) (hi : i < d.length) :
    calcChecksumV0 k (d.set i (flipTop (d.getD i 0))) = calcChecksumV0 k d
      ∧ (∃ c, calcChecksumV0 k d = .ok c)
      ∧ d.set i (flipTop (d.getD i 0)) ≠ d := by
  have hs := byteSum_set d i (flipTop (d.getD i 0)) hi
  have hf := flipTop_val (d.getD i 0)
  refine ⟨?_, ⟨_, calcChecksumV0_short_eq k d h.2⟩, ?_⟩
  · rw [calcChecksumV0_short_eq k d h.2,
      calcChecksumV0_short_eq k _ (by rw [List.length_set]; exact h.2)]
    congr 1
    have h1 := hf.1
    simp only [byteAt] at hs
    omega
  · intro heq
    have h2 : (d.set i (flipTop (d.getD i 0))).getD i 0 = flipTop (d.getD i 0) := by
      rw [List.getD_eq_getElem _ _ (by rw [List.length_set]; exact hi), List.getElem_set_self]
    rw [heq] at h2
    exact hf.2 h2.symm

theorem top_bit_flip_undetected_witness :
    (1 ≤ ([0x10, 0x20, 0x30] : List Byte).length ∧ ([0x10, 0x20, 0x30] : List Byte).length ≤ 3)
      ∧ calcChecksumV0 [0x41] [0x10, 0xA0, 0x30] = calcChecksumV0 [0x41] [0x10, 0x20, 0x30] :=
  ⟨by decide,
    (top_bit_flip_undetected [0x41] [0x10, 0x20, 0x30] 1 (by decide) (by decide)).1⟩

/-! ## The trailing word read as a zero-padded little-endian word -/

theorem lastWordRel_eq (d : List Byte) :
    ∀ (fuel i acc : Nat), d.length - d.length % 4 ≤ i →
      lastWordRel d (d.length - d.length % 4) fuel i acc = lastWord d fuel i acc := by
  intro fuel
  induction fuel with
  | zero =>
    intro i acc _
    unfold lastWordRel lastWord
    rfl
  | succ fuel ih =>
    intro i acc hi
    unfold lastWordRel lastWord
    by_cases hc : i < d.length
    · have hr : i - (d.length - d.length % 4) = i % 4 := by omega
      rw [if_pos hc, if_pos hc]
      simp only [index_of_lt hc, bind, Except.bind, hr]
      exact ih (i + 1) _ (by omega)
    · rw [if_neg hc, if_neg hc]

/-- C18. For every key and every buffer, `calcChecksumV0` returns the same value as the
variant that places the `j`-th trailing byte at bit position `8 * j`, because every
index `i` of a trailing byte satisfies `i mod 4 = i - start`, the trailing bytes
starting at a multiple of 4; both return a value. -/
theorem calcChecksumV0_eq_rel (k : Key) (d : List Byte) :
    calcChecksumV0 k d = calcChecksumV0Rel k d
      ∧ (∃ c, calcChecksumV0Rel k d = .ok c)
      ∧ (d.length - d.length % 4) % 4 = 0
      ∧ (∀ i, d.length - d.length % 4 ≤ i → i < d.length →
          i % 4 = i - (d.length - d.length % 4)) := by
  have heq : calcChecksumV0 k d = calcChecksumV0Rel k d := by
    unfold calcChecksumV0 calcChecksumV0Rel
    simp only [lastWordRel_eq d d.length (d.length - d.length % 4) 0 (Nat.le_refl _)]
  refine ⟨heq, ⟨_, by rw [← heq]; exact calcChecksumV0_closed k d⟩, by omega, ?_⟩
  intro i h1 h2
  omega

/-! ## Index safety of the V0 engine -/

theorem firstMatch_result_mem (v : Key → Bool) (keys : List Key) :
    (firstMatch v keys).result = .NoMatch
      ∨ ∃ key ∈ keys, (firstMatch v keys).result = .Match key := by
  cases hres : (firstMatch v keys).result with
  | NoMatch => exact Or.inl rfl
  | Match key =>
    right
    obtain ⟨pre, post, hk, _, _⟩ := ((firstMatch_spec v keys).1 key).1 hres
    exact ⟨key, by rw [hk]; simp, rfl⟩

/-- C19. For every key and every buffer (of any length, 0 to 3 included)
`calcChecksumV0` returns a byte: no index it reads is out of range and no loop runs out
of fuel; and for every candidate list and every packet of at least one byte
`checkPacketV0` returns without a bounds failure, with `NoMatch` or with `Match` of one
of the candidates. -/
theorem v0_index_safe (k : Key) (d : List Byte) (keys : List Key) (p : Slice) :
    (∃ c, calcChecksumV0 k d = .ok c ∧ c < 256)
      ∧ (1 ≤ p.len →
          ∃ r, checkPacketV0 keys p = .ok r
            ∧ (r.result = .NoMatch ∨ ∃ key ∈ keys, r.result = .Match key)) :=
  ⟨⟨_, calcChecksumV0_closed k d, Nat.mod_lt _ (by norm_num)⟩,
    fun h => ⟨_, checkPacketV0_eq p h keys, firstMatch_result_mem _ keys⟩⟩

theorem v0_index_safe_witness :
    1 ≤ (Slice.ofList [3]).len
      ∧ ∃ r, checkPacketV0 [[1], [2]] (Slice.ofList [3]) = .ok r
          ∧ (r.result = .NoMatch ∨ ∃ key ∈ [[1], [2]], r.result = .Match key) :=
  ⟨by decide, (v0_index_safe [] [] [[1], [2]] (Slice.ofList [3])).2 (by decide)⟩

end Extractor
